import Mathlib

/-!
Verification of the marble-solitaire engine (msBoard.cpp, msSolver.cpp,
msBitmap.h) against its natural-language specification.  Boards are 64-bit
words embedded as `Nat` (all values stay below `2 ^ 64`; the uint64 complement
is `not64`).  The solver's iterative DFS is embedded as a step function plus a
fuel-indexed loop; fuel sufficiency is proved separately, so the fuelled loop
is exactly the C++ `while` loop on every input.
-/

set_option maxRecDepth 8000

namespace MS

/-- Bitwise complement on a 64-bit word (C `~x` on `uint64_t`). -/
def not64 (x : Nat) : Nat := x ^^^ 0xFFFFFFFFFFFFFFFF

/-- The PLAYABLE table from msBoard.cpp (7 rows of 7 bools). -/
def PLAYABLE_TABLE : List (List Bool) :=
  [[false, false, true, true, true, false, false],
   [false, true, true, true, true, true, false],
   [true, true, true, true, true, true, true],
   [true, true, true, true, true, true, true],
   [true, true, true, true, true, true, true],
   [false, true, true, true, true, true, false],
   [false, false, true, true, true, false, false]]

/-- In-bounds lookup of `PLAYABLE[r][c]`.  The C++ array read is only embedded
through this function at indices the source has bounds-checked. -/
def PLAYABLE (r c : Nat) : Bool := (PLAYABLE_TABLE.getD r []).getD c false

/-- `COL_START_IDX` from msBoard.cpp. -/
def COL_START_IDX (r : Nat) : Nat := [2, 1, 0, 0, 0, 1, 2].getD r 0

/-- `COL_END_IDX` from msBoard.cpp. -/
def COL_END_IDX (r : Nat) : Nat := [4, 5, 6, 6, 6, 5, 4].getD r 0

/-- `ROW_IDX(r) = 63 - r*7` from msBoard.cpp. -/
def ROW_IDX (r : Nat) : Nat := 63 - r * 7

/-- `rowShift[r] = ROW_IDX(r) - 6` from msBoard.cpp. -/
def rowShift (r : Nat) : Nat := ROW_IDX r - 6

/-- `bitIndex(r, c) = ROW_IDX(r) - c` from msBoard.cpp. -/
def bitIndex (r c : Nat) : Nat := ROW_IDX r - c

/-- `getRow` from msBoard.cpp. -/
def getRow (b : Nat) (r : Nat) : Nat := (b >>> rowShift r) &&& 0x7F

/-- `getCol` from msBoard.cpp (the portable, non-PEXT branch; the PEXT branch
extracts the same bits). -/
def getCol (b : Nat) (c : Nat) : Nat :=
  ((b >>> (ROW_IDX 0 - c)) &&& 1) <<< 6 |||
  ((b >>> (ROW_IDX 1 - c)) &&& 1) <<< 5 |||
  ((b >>> (ROW_IDX 2 - c)) &&& 1) <<< 4 |||
  ((b >>> (ROW_IDX 3 - c)) &&& 1) <<< 3 |||
  ((b >>> (ROW_IDX 4 - c)) &&& 1) <<< 2 |||
  ((b >>> (ROW_IDX 5 - c)) &&& 1) <<< 1 |||
  ((b >>> (ROW_IDX 6 - c)) &&& 1)

/-- `reverse7` from msBoard.cpp: reverse the 7 least significant bits.  The
`REVERSED` table in the source is built by applying `reverse7` to 0..127. -/
def reverse7 (x : Nat) : Nat :=
  ((x &&& 0x01) <<< 6) ||| ((x &&& 0x02) <<< 4) ||| ((x &&& 0x04) <<< 2) |||
  (x &&& 0x08) ||| ((x &&& 0x10) >>> 2) ||| ((x &&& 0x20) >>> 4) |||
  ((x &&& 0x40) >>> 6)

/-- `insertRow` from msBoard.cpp. -/
def insertRow (b : Nat) (r : Nat) (row : Nat) : Nat :=
  (b &&& not64 (0x7F <<< rowShift r)) ||| (row <<< rowShift r)

/-- `getBit` from msBoard.cpp. -/
def getBit (b : Nat) (r c : Nat) : Nat := (b >>> bitIndex r c) &&& 1

/-- The `msBoard::Transform` enum. -/
inductive Transform where
  | d0 | d90 | d180 | d270 | fH | fV | fD | fA
deriving DecidableEq, Repr

/-- The eight transforms in enum-index order 0..7. -/
def allTransforms : List Transform :=
  [.d0, .d90, .d180, .d270, .fH, .fV, .fD, .fA]

/-- `inverseTransform` from msBoard.cpp. -/
def inverseTransform : Transform → Transform
  | .d0 => .d0
  | .d90 => .d270
  | .d180 => .d180
  | .d270 => .d90
  | .fH => .fH
  | .fV => .fV
  | .fD => .fD
  | .fA => .fA

/-- `transformBoard` from msBoard.cpp: one loop of seven `insertRow`s per
transform, starting from the empty board. -/
def transformBoard (b : Nat) : Transform → Nat
  | .d0 => b
  | .d90 => (List.range 7).foldl (fun out i => insertRow out (6 - i) (getCol b i)) 0
  | .d180 => (List.range 7).foldl (fun out i => insertRow out (6 - i) (reverse7 (getRow b i))) 0
  | .d270 => (List.range 7).foldl (fun out i => insertRow out i (reverse7 (getCol b i))) 0
  | .fH => (List.range 7).foldl (fun out i => insertRow out i (reverse7 (getRow b i))) 0
  | .fV => (List.range 7).foldl (fun out i => insertRow out (6 - i) (getRow b i)) 0
  | .fD => (List.range 7).foldl (fun out i => insertRow out i (getCol b i)) 0
  | .fA => (List.range 7).foldl (fun out i => insertRow out (6 - i) (reverse7 (getCol b i))) 0

/-- The `boards[i]` images accumulated inside `msBoard::getCanonicalBits`:
`boards[0]` is the board itself and the other seven are built by ORing one
(row or column, possibly reversed) value per source row into a zero board. -/
def canonImage (b : Nat) : Transform → Nat
  | .d0 => b
  | .d90 => (List.range 7).foldl (fun out i => out ||| (reverse7 (getCol b i) <<< rowShift i)) 0
  | .d180 => (List.range 7).foldl (fun out i => out ||| (reverse7 (getRow b i) <<< rowShift (6 - i))) 0
  | .d270 => (List.range 7).foldl (fun out i => out ||| (getCol b i <<< rowShift (6 - i))) 0
  | .fH => (List.range 7).foldl (fun out i => out ||| (reverse7 (getRow b i) <<< rowShift i)) 0
  | .fV => (List.range 7).foldl (fun out i => out ||| (getRow b i <<< rowShift (6 - i))) 0
  | .fD => (List.range 7).foldl (fun out i => out ||| (getCol b i <<< rowShift i)) 0
  | .fA => (List.range 7).foldl (fun out i => out ||| (reverse7 (getCol b i) <<< rowShift (6 - i))) 0

/-- The selection loop of `msBoard::getCanonicalBits`: keep the numerically
smallest image, ties broken by the first (lowest) transform index. -/
def canonicalPair (b : Nat) : Nat × Transform :=
  allTransforms.foldl
    (fun best t => if canonImage b t < best.1 then (canonImage b t, t) else best)
    (b, .d0)

/-- Board component of `getCanonicalBits`. -/
def canonB (b : Nat) : Nat := (canonicalPair b).1

/-- `msBoard::Move`: a set bit (jump destination) and two clear bits (origin
and jumped-over cell). -/
structure Mv where
  setBit : Nat
  clearBits : Nat
deriving DecidableEq, Repr

/-- The moves generated for one playable cell by `msBoard::setupAllMoves`,
in the source's direction order: up, down, left, right. -/
def cellMoves (r c : Nat) : List Mv :=
  (if 2 ≤ r ∧ PLAYABLE (r-1) c ∧ PLAYABLE (r-2) c then
    [⟨1 <<< bitIndex (r-2) c, (1 <<< bitIndex r c) ||| (1 <<< bitIndex (r-1) c)⟩] else []) ++
  (if r ≤ 4 ∧ PLAYABLE (r+1) c ∧ PLAYABLE (r+2) c then
    [⟨1 <<< bitIndex (r+2) c, (1 <<< bitIndex r c) ||| (1 <<< bitIndex (r+1) c)⟩] else []) ++
  (if 2 ≤ c ∧ PLAYABLE r (c-1) ∧ PLAYABLE r (c-2) then
    [⟨1 <<< bitIndex r (c-2), (1 <<< bitIndex r c) ||| (1 <<< bitIndex r (c-1))⟩] else []) ++
  (if c ≤ 4 ∧ PLAYABLE r (c+1) ∧ PLAYABLE r (c+2) then
    [⟨1 <<< bitIndex r (c+2), (1 <<< bitIndex r c) ||| (1 <<< bitIndex r (c+1))⟩] else [])

/-- `msBoard::setupAllMoves`: row-major over the playable cells. -/
def ALL_MOVES : List Mv :=
  (List.range 7).flatMap fun r =>
    (((List.range 7).filter fun c =>
        decide (COL_START_IDX r ≤ c) && decide (c ≤ COL_END_IDX r) && PLAYABLE r c).flatMap
      fun c => cellMoves r c)

/-- The legality test inside `msBoard::validMoves`: all clear bits occupied
and the set bit empty (`empty` is the uint64 complement of the board). -/
def legalB (b : Nat) (m : Mv) : Bool :=
  (b &&& m.clearBits == m.clearBits) && ((not64 b) &&& m.setBit == m.setBit)

/-- `msBoard::validMoves`: filter `ALL_MOVES` in table order. -/
def validMovesB (b : Nat) : List Mv := ALL_MOVES.filter (legalB b)

/-- `msBoard::applyMove`. -/
def applyMoveB (b : Nat) (m : Mv) : Nat := (b ||| m.setBit) &&& not64 m.clearBits

/-- `msBoard::undoMove`. -/
def undoMoveB (b : Nat) (m : Mv) : Nat := (b &&& not64 m.setBit) ||| m.clearBits

/-- `__builtin_popcountll` on a 64-bit word. -/
def popcount64 (b : Nat) : Nat := (List.range 64).countP fun i => b.testBit i

/-- `msBoard::hasWon`: exactly one marble left. -/
def hasWonB (b : Nat) : Bool := popcount64 b == 1

/-- `msBoard::boardToBits`: pack the 37 playable bits into the low bits. -/
def boardToBits (b : Nat) : Nat :=
  let b1 := b >>> 17
  let r1 := b1 &&& 0x7
  let b2 := b1 >>> 6
  let r2 := r1 ||| ((b2 &&& 0x1F) <<< 3)
  let b3 := b2 >>> 6
  let r3 := r2 ||| ((b3 &&& 0x1FFFFF) <<< 8)
  let b4 := b3 >>> 22
  let r4 := r3 ||| ((b4 &&& 0x1F) <<< 29)
  let b5 := b4 >>> 8
  r4 ||| ((b5 &&& 0x7) <<< 34)

/-- `FULL_BOARD` from msBoard.cpp (also the mask of playable cells). -/
def FULL_BOARD : Nat := 0x38FBFFFFEF8E0000

/-- `DEFAULT_BOARD` from msBoard.cpp (the active definition). -/
def DEFAULT_BOARD : Nat := 0x18FBFFFFEF8E0000

/-- The board invariant: every bit outside the playable mask is 0. -/
def PlayInv (b : Nat) : Prop := b &&& FULL_BOARD = b

/-- The custom `msBoard(unsigned row, unsigned col)` constructor: full board
minus the requested cell when playable, otherwise the default board. -/
def msBoardCustom (row col : Nat) : Nat :=
  if row > 6 ∨ col > 6 ∨ ¬ PLAYABLE row col then DEFAULT_BOARD
  else FULL_BOARD &&& not64 (1 <<< bitIndex row col)

/-- `msBoard::undoTransform`: map a move's two masks through the inverse
transform (no-op for the identity). -/
def undoTransformM (m : Mv) (t : Transform) : Mv :=
  match t with
  | .d0 => m
  | t => ⟨transformBoard m.setBit (inverseTransform t),
          transformBoard m.clearBits (inverseTransform t)⟩

/-- A DFS stack frame (`StackFrame` in msSolver.cpp). -/
structure Frame where
  board : Nat
  moveIndex : Nat
  moveEnd : Nat
  movesStart : Nat
  transforms : List Transform
  incoming : Option Mv
deriving DecidableEq, Repr

/-- The mutable state of `runDFS`: the frame stack (head is the top), the
shared move buffer, and the visited set of packed keys.  With
`HAVE_16GB_RAM = 0` the visited set is a hash set of `uint64`; its observable
behaviour (`testAndSet`, `clear`) is exactly membership and insertion, which
the key list models. -/
structure DFSState where
  stack : List Frame
  buffer : List Mv
  seen : List Nat
deriving Repr

/-- `getMoveOrder`, step 1: walk the frames from leaf to root, collecting each
frame's incoming move together with the transform list of its parent (the
next frame toward the root; the root pairs with the empty list). -/
def collectMoves : List Frame → List (Mv × List Transform)
  | [] => []
  | f :: rest =>
    match f.incoming with
    | some m => (m, ((rest.head?.map Frame.transforms).getD [])) :: collectMoves rest
    | none => collectMoves rest

/-- `getMoveOrder` from msSolver.cpp: collect (move, parent transforms) pairs,
undo each move's transforms from last applied to first, then reverse so the
earliest move is first. -/
def getMoveOrder (frames : List Frame) : List Mv :=
  ((collectMoves frames).map fun p => p.2.foldr (fun t acc => undoTransformM acc t) p.1).reverse

/-- One iteration of the `while` loop in `runDFS`.  Note on the pop branch:
the source executes `moves.reserve(top.movesStart)` before popping, and
`std::vector::reserve` affects only capacity, never size or contents, so the
buffer is unchanged. -/
def dfsStep (st : DFSState) : DFSState ⊕ List Mv :=
  match st.stack with
  | [] => .inr []
  | top :: rest =>
    if top.moveIndex ≥ top.moveEnd then
      .inl ⟨rest, st.buffer, st.seen⟩
    else
      let m := st.buffer.getD top.moveIndex ⟨0, 0⟩
      let top' := { top with moveIndex := top.moveIndex + 1 }
      let nextBoard := applyMoveB top.board m
      let canon := canonB nextBoard
      let t := (canonicalPair nextBoard).2
      if st.seen.contains (boardToBits canon) then
        .inl ⟨top' :: rest, st.buffer, st.seen⟩
      else
        let seen' := boardToBits canon :: st.seen
        let start := st.buffer.length
        let buf' := st.buffer ++ validMovesB canon
        let newTrans := top.transforms ++ (if t = .d0 then [] else [t])
        let child : Frame := ⟨canon, start, buf'.length, start, newTrans, some m⟩
        if hasWonB nextBoard then .inr (getMoveOrder (child :: top' :: rest))
        else .inl ⟨child :: top' :: rest, buf', seen'⟩

/-- The `runDFS` loop, indexed by fuel; `none` means the fuel ran out (the
totality theorem shows the fuel used by `solve` never does). -/
def runDFSFuel : Nat → DFSState → Option (List Mv)
  | 0, _ => none
  | fuel + 1, st =>
    match dfsStep st with
    | .inr res => some res
    | .inl st' => runDFSFuel fuel st'

/-- Fuel bound used by `solve`; larger than the loop's iteration count on any
input (proved by the totality theorem). -/
def FUEL : Nat := 2 ^ 45

/-- `msSolver::solve`: canonicalise the start board, seed the root frame with
its valid moves, and run the DFS on a cleared visited set. -/
def solve (b : Nat) : List Mv :=
  let p := canonicalPair b
  let transforms : List Transform := if p.2 = .d0 then [] else [p.2]
  let moves := validMovesB p.1
  (runDFSFuel FUEL ⟨[⟨p.1, 0, moves.length, 0, transforms, none⟩], moves, []⟩).getD []

/-- Iterate `dfsStep` a given number of times, stopping (with `none`) if the
loop exits first.  Used to observe intermediate DFS states. -/
def dfsIter : Nat → DFSState → Option DFSState
  | 0, st => some st
  | n + 1, st =>
    match dfsStep st with
    | .inl st' => dfsIter n st'
    | .inr _ => none

/-- The initial DFS state that `solve b` passes to `runDFS`. -/
def initState (b : Nat) : DFSState :=
  let p := canonicalPair b
  let transforms : List Transform := if p.2 = .d0 then [] else [p.2]
  let moves := validMovesB p.1
  ⟨[⟨p.1, 0, moves.length, 0, transforms, none⟩], moves, []⟩

/-- `PLAYABLE[r][c]` read through a bounds check: `none` models the undefined
behaviour of an out-of-bounds array read. -/
def checkedPlayable (r c : Int) : Option Bool :=
  if 0 ≤ r ∧ r ≤ 6 ∧ 0 ≤ c ∧ c ≤ 6 then some (PLAYABLE r.toNat c.toNat) else none

/-- `msBoard::isValidMove`, with every `PLAYABLE` array access routed through
the bounds check; the result is `none` exactly when the C++ code performs an
out-of-bounds read (undefined behaviour).  The source checks `toRow`/`toCol`
against the bounds but reads `PLAYABLE[row][col]` without checking
`row`/`col`. -/
def isValidMoveM (b : Nat) (row col toRow toCol : Int) : Option Bool :=
  let rowDif := (row - toRow).natAbs
  let colDif := (col - toCol).natAbs
  if toRow > 6 ∨ toRow < 0 ∨ toCol > 6 ∨ toCol < 0 then some false
  else
    match checkedPlayable row col, checkedPlayable toRow toCol with
    | some p1, some p2 =>
      if ¬ p1 ∨ ¬ p2 then some false
      else if ¬ ((rowDif = 2 ∧ colDif = 0) ∨ (rowDif = 0 ∧ colDif = 2)) then some false
      else if getBit b row.toNat col.toNat = 0 ∨ getBit b toRow.toNat toCol.toNat ≠ 0 then
        some false
      else
        some (getBit b (((row + toRow) / 2).toNat) (((col + toCol) / 2).toNat) ≠ 0)
    | _, _ => none

/-- `msBoard::getAMove`: `none` models the out-of-bounds read inherited from
`isValidMove`; `some none` models the thrown `runtime_error`; `some (some m)`
is a normal return. -/
def getAMoveM (b : Nat) (row col toRow toCol : Int) : Option (Option Mv) :=
  (isValidMoveM b row col toRow toCol).map fun ok =>
    if ok then
      some ⟨1 <<< bitIndex toRow.toNat toCol.toNat,
            (1 <<< bitIndex row.toNat col.toNat) |||
            (1 <<< bitIndex (((row + toRow) / 2).toNat) (((col + toCol) / 2).toNat))⟩
    else none

/-- Number of playable cells in the PLAYABLE table. -/
def playableCount : Nat :=
  ((List.range 7).flatMap fun r => (List.range 7).filter fun c => PLAYABLE r c).length

/-- Specification-level enumeration of the geometrically legal jumps: all
(source, destination) pairs of playable cells at distance two along one axis
whose midpoint is playable, encoded as a move the way the data model
prescribes (set bit at the destination, clear bits at source and midpoint). -/
def geomJumps : List Mv :=
  (List.range 7).flatMap fun r => (List.range 7).flatMap fun c =>
    (List.range 7).flatMap fun tr => (List.range 7).flatMap fun tc =>
      if PLAYABLE r c ∧ PLAYABLE tr tc ∧ PLAYABLE ((r + tr) / 2) ((c + tc) / 2) ∧
          ((r = tr ∧ (c + 2 = tc ∨ tc + 2 = c)) ∨ (c = tc ∧ (r + 2 = tr ∨ tr + 2 = r))) then
        [⟨1 <<< bitIndex tr tc,
          (1 <<< bitIndex r c) ||| (1 <<< bitIndex ((r + tr) / 2) ((c + tc) / 2))⟩]
      else []

/-- A legal play sequence: each move is a geometric jump that is legal on the
board it is applied to. -/
def legalSeq : Nat → List Mv → Prop
  | _, [] => True
  | b, m :: ms => m ∈ ALL_MOVES ∧ legalB b m = true ∧ legalSeq (applyMoveB b m) ms

/-- Apply a sequence of moves in order. -/
def playSeq (b : Nat) (ms : List Mv) : Nat := ms.foldl applyMoveB b

/-- The board is solvable by a non-empty sequence of legal moves. -/
def SolvableNE (b : Nat) : Prop :=
  ∃ ms : List Mv, ms ≠ [] ∧ legalSeq b ms ∧ popcount64 (playSeq b ms) = 1

/-- The cell permutation realised by each image of `getCanonicalBits`: the
image's cell (r,c) shows the source board's cell `sigmaG t (r,c)` (validated
against the source by the bit-level characterisation theorem). -/
def sigmaG : Transform → Nat × Nat → Nat × Nat
  | .d0, rc => rc
  | .d90, (r, c) => (6 - c, r)
  | .d180, (r, c) => (6 - r, 6 - c)
  | .d270, (r, c) => (c, 6 - r)
  | .fH, (r, c) => (r, 6 - c)
  | .fV, (r, c) => (6 - r, c)
  | .fD, (r, c) => (c, r)
  | .fA, (r, c) => (6 - c, 6 - r)

/-- `transformBoard` and `getCanonicalBits` build their 90- and 270-degree
images with swapped labels; `tbLabel` maps a `transformBoard` label to the
`getCanonicalBits` label computing the same image. -/
def tbLabel : Transform → Transform
  | .d90 => .d270
  | .d270 => .d90
  | t => t

/-- Composition table of the image permutations:
`sigmaG s (sigmaG t rc) = sigmaG (compG s t) rc` on the 7 by 7 grid. -/
def compG : Transform → Transform → Transform
  | .d0, t => t
  | .d90, .d0 => .d90
  | .d90, .d90 => .d180
  | .d90, .d180 => .d270
  | .d90, .d270 => .d0
  | .d90, .fH => .fD
  | .d90, .fV => .fA
  | .d90, .fD => .fV
  | .d90, .fA => .fH
  | .d180, .d0 => .d180
  | .d180, .d90 => .d270
  | .d180, .d180 => .d0
  | .d180, .d270 => .d90
  | .d180, .fH => .fV
  | .d180, .fV => .fH
  | .d180, .fD => .fA
  | .d180, .fA => .fD
  | .d270, .d0 => .d270
  | .d270, .d90 => .d0
  | .d270, .d180 => .d90
  | .d270, .d270 => .d180
  | .d270, .fH => .fA
  | .d270, .fV => .fD
  | .d270, .fD => .fH
  | .d270, .fA => .fV
  | .fH, .d0 => .fH
  | .fH, .d90 => .fA
  | .fH, .d180 => .fV
  | .fH, .d270 => .fD
  | .fH, .fH => .d0
  | .fH, .fV => .d180
  | .fH, .fD => .d270
  | .fH, .fA => .d90
  | .fV, .d0 => .fV
  | .fV, .d90 => .fD
  | .fV, .d180 => .fH
  | .fV, .d270 => .fA
  | .fV, .fH => .d180
  | .fV, .fV => .d0
  | .fV, .fD => .d90
  | .fV, .fA => .d270
  | .fD, .d0 => .fD
  | .fD, .d90 => .fH
  | .fD, .d180 => .fA
  | .fD, .d270 => .fV
  | .fD, .fH => .d90
  | .fD, .fV => .d270
  | .fD, .fD => .d0
  | .fD, .fA => .d180
  | .fA, .d0 => .fA
  | .fA, .d90 => .fV
  | .fA, .d180 => .fD
  | .fA, .d270 => .fH
  | .fA, .fH => .d270
  | .fA, .fV => .d90
  | .fA, .fD => .d180
  | .fA, .fA => .d0

/-- A word whose one-bits all lie in the 49-cell window, bits 15 to 63 (each
board row occupies seven of these bits). -/
def WSupp (b : Nat) : Prop := ∀ i : Nat, b.testBit i = true → 15 ≤ i ∧ i < 64

/-- The image of a move under a dihedral transform: both masks mapped through
the corresponding `getCanonicalBits` image. -/
def moveImage (t : Transform) (m : Mv) : Mv :=
  ⟨canonImage m.setBit t, canonImage m.clearBits t⟩

/-- One step of the search in canonical space: play a valid move and
canonicalise the result. -/
def HopStep (x y : Nat) : Prop := ∃ m ∈ validMovesB x, y = canonB (applyMoveB x m)

/-- A canonical position with a winning move. -/
def HopWin (c : Nat) : Prop := ∃ m ∈ validMovesB c, popcount64 (applyMoveB c m) = 1

/-- Solvability in canonical space. -/
def HopSolv (c : Nat) : Prop := ∃ y, Relation.ReflTransGen HopStep c y ∧ HopWin y

/-- Source bit position of bit j of the 37-bit packing. -/
def packSrc (j : Nat) : Nat :=
  if j < 3 then 17 + j
  else if j < 8 then 23 + (j - 3)
  else if j < 29 then 29 + (j - 8)
  else if j < 34 then 51 + (j - 29)
  else 59 + (j - 34)

/-- A canonical position all of whose successors have been recorded in the
visited set, none of them winning. -/
def Expanded (c : Nat) (seen : List Nat) : Prop :=
  ∀ m ∈ validMovesB c, boardToBits (canonB (applyMoveB c m)) ∈ seen ∧
    popcount64 (applyMoveB c m) ≠ 1

/-- Invariant of one DFS stack frame. -/
structure FrameOK (st : DFSState) (f : Frame) : Prop where
  playinv : PlayInv f.board
  canonical : canonB f.board = f.board
  le1 : f.movesStart ≤ f.moveIndex
  le2 : f.moveIndex ≤ f.moveEnd
  le3 : f.moveEnd ≤ st.buffer.length
  segMem : ∀ j, f.movesStart ≤ j → j < f.moveEnd →
    st.buffer.getD j ⟨0, 0⟩ ∈ validMovesB f.board
  segAll : ∀ m ∈ validMovesB f.board,
    ∃ j, f.movesStart ≤ j ∧ j < f.moveEnd ∧ st.buffer.getD j ⟨0, 0⟩ = m
  done : ∀ j, f.movesStart ≤ j → j < f.moveIndex →
    boardToBits (canonB (applyMoveB f.board (st.buffer.getD j ⟨0, 0⟩))) ∈ st.seen ∧
    popcount64 (applyMoveB f.board (st.buffer.getD j ⟨0, 0⟩)) ≠ 1

/-- Invariant of the visited set: every key is the packing of a non-won
canonical position that is either still on the stack or fully expanded. -/
def SeenOK (st : DFSState) : Prop :=
  ∀ k ∈ st.seen, ∃ c : Nat, PlayInv c ∧ canonB c = c ∧ boardToBits c = k ∧
    popcount64 c ≠ 1 ∧ (c ∈ st.stack.map Frame.board ∨ Expanded c st.seen)

/-- The stack's boards, from top to bottom, form a chain of hop steps. -/
def ChainOKb : List Nat → Prop
  | f :: g :: rest => HopStep g f ∧ ChainOKb (g :: rest)
  | _ => True

/-- The full DFS invariant, relative to the canonical root R. -/
structure INV (R : Nat) (st : DFSState) : Prop where
  rootPlay : PlayInv R
  rootCanon : canonB R = R
  seenOK : SeenOK st
  chain : ChainOKb (st.stack.map Frame.board)
  frames : ∀ f ∈ st.stack, FrameOK st f
  rootLast : st.stack.getLast?.map Frame.board = some R ∨
    (st.stack = [] ∧ Expanded R st.seen)

/-- Totality invariant: the visited list has no duplicates and only 37-bit
keys. -/
def TotInv (st : DFSState) : Prop :=
  st.seen.Nodup ∧ ∀ k ∈ st.seen, k < 2 ^ 37

/-- Number of unprocessed move slots over all frames. -/
def movesRem (st : DFSState) : Nat :=
  (st.stack.map fun f => f.moveEnd - f.moveIndex).sum

/-- Termination measure of the DFS loop. -/
def measureDFS (st : DFSState) : Nat :=
  (2 ^ 37 - st.seen.length) * 100 + movesRem st + st.stack.length

end MS


namespace MS

/-! ## Generic 64-bit lemmas -/

theorem testBit_not64 (x i : Nat) (hi : i < 64) : (not64 x).testBit i = !x.testBit i := by
  have h : not64 x = x ^^^ (2 ^ 64 - 1) := by norm_num [not64]
  rw [h, Nat.testBit_xor, Nat.testBit_two_pow_sub_one]
  have hd : decide (i < 64) = true := by simpa using hi
  rw [hd]
  cases x.testBit i <;> rfl

theorem testBit_ge64 {x : Nat} (hx : x < 2 ^ 64) {i : Nat} (hi : 64 ≤ i) :
    x.testBit i = false :=
  Nat.testBit_lt_two_pow (lt_of_lt_of_le hx (Nat.pow_le_pow_right (by norm_num) hi))

theorem not64_lt (x : Nat) : not64 x < 2 ^ 64 ∨ x ≥ 2 ^ 64 := by
  rcases lt_or_ge x (2 ^ 64) with hx | hx
  · left
    have h1 : (0xFFFFFFFFFFFFFFFF : Nat) < 2 ^ 64 := by norm_num
    exact Nat.xor_lt_two_pow hx h1
  · right; exact hx

theorem and_lt_two_pow_of_right {x y n : Nat} (hy : y < 2 ^ n) : x &&& y < 2 ^ n :=
  lt_of_le_of_lt Nat.and_le_right hy

/-! ## C9: apply then undo is the identity -/

/-- C9: for every 64-bit board B and move M legal on B, in the sense that both
clear bits are set in B and the set bit is clear in B, `undoMove` applied
after `applyMove` with the same M returns B bit-for-bit. -/
theorem C9_apply_undo (b : Nat) (m : Mv) (hb : b < 2 ^ 64) (hset : m.setBit < 2 ^ 64)
    (hclear : m.clearBits < 2 ^ 64) (h1 : b &&& m.clearBits = m.clearBits)
    (h2 : b &&& m.setBit = 0) : undoMoveB (applyMoveB b m) m = b := by
  apply Nat.eq_of_testBit_eq
  intro i
  rcases lt_or_ge i 64 with hi | hi
  · have e1 := congrArg (fun x => x.testBit i) h1
    have e2 := congrArg (fun x => x.testBit i) h2
    simp only [Nat.testBit_and, Nat.zero_testBit] at e1 e2
    simp only [undoMoveB, applyMoveB, Nat.testBit_or, Nat.testBit_and,
      testBit_not64 _ _ hi]
    revert e1 e2
    cases b.testBit i <;> cases m.setBit.testBit i <;> cases m.clearBits.testBit i <;> simp
  · have hn1 : not64 m.clearBits < 2 ^ 64 := by
      rcases not64_lt m.clearBits with h | h
      · exact h
      · omega
    have h3 : applyMoveB b m < 2 ^ 64 := and_lt_two_pow_of_right hn1
    have hn2 : not64 m.setBit < 2 ^ 64 := by
      rcases not64_lt m.setBit with h | h
      · exact h
      · omega
    have h4 : undoMoveB (applyMoveB b m) m < 2 ^ 64 :=
      Nat.or_lt_two_pow (and_lt_two_pow_of_right hn2) hclear
    rw [testBit_ge64 h4 hi, testBit_ge64 hb hi]

/-- Witness for C9 at a concrete board and move: the default board with the
jump from (0,4) over (0,3) into the empty cell (0,2). -/
theorem C9_apply_undo_witness :
    undoMoveB (applyMoveB DEFAULT_BOARD ⟨1 <<< 61, (1 <<< 59) ||| (1 <<< 60)⟩)
      ⟨1 <<< 61, (1 <<< 59) ||| (1 <<< 60)⟩ = DEFAULT_BOARD :=
  C9_apply_undo DEFAULT_BOARD ⟨1 <<< 61, (1 <<< 59) ||| (1 <<< 60)⟩
    (by decide) (by decide) (by decide) (by decide) (by decide)

/-! ## C4: sizes of the playable mask, full board, and start boards -/

/-- C4 counterexample: the playable mask does not have 33 one-bits, the full
board does not have popcount 33, and the start boards do not have
popcount 32. -/
theorem C4_counterexample :
    ¬ (playableCount = 33 ∧ popcount64 FULL_BOARD = 33 ∧
       popcount64 DEFAULT_BOARD = 32) := by decide

/-- C4 (amended): the playable mask contains exactly 37 one-bits, a full board
has popcount 37, and every board produced by the constructors (default, or
full board minus one playable cell, with fallback to the default) has
popcount 36. -/
theorem C4_amended :
    playableCount = 37 ∧ popcount64 FULL_BOARD = 37 ∧
    popcount64 DEFAULT_BOARD = 36 ∧ ∀ r c : Nat, popcount64 (msBoardCustom r c) = 36 := by
  refine ⟨by decide, by decide, by decide, ?_⟩
  intro r c
  by_cases h : r > 6 ∨ c > 6 ∨ ¬ PLAYABLE r c
  · rw [msBoardCustom, if_pos h]; decide
  · rw [msBoardCustom, if_neg h]
    push_neg at h
    obtain ⟨hr, hc, hp⟩ := h
    interval_cases r <;> interval_cases c <;> first | decide | (exact absurd hp (by decide))

/-! ## C5: the move table -/

/-- C5 counterexample: the move table does not contain 76 moves. -/
theorem C5_counterexample : ¬ ALL_MOVES.length = 76 := by decide

/-- C5 (amended): the move table contains exactly 92 distinct moves and
enumerates exactly the geometrically legal jumps on the playable cells. -/
theorem C5_amended :
    ALL_MOVES.length = 92 ∧ ALL_MOVES.Nodup ∧
    (∀ m ∈ ALL_MOVES, m ∈ geomJumps) ∧ (∀ m ∈ geomJumps, m ∈ ALL_MOVES) := by
  refine ⟨by decide, by decide, by decide, by decide⟩

/-- Witness for C5 at a concrete move: the jump from (0,2) down to (2,2) is in
the table and is a geometric jump. -/
theorem C5_amended_witness :
    (⟨1 <<< bitIndex 2 2, (1 <<< bitIndex 0 2) ||| (1 <<< bitIndex 1 2)⟩ : Mv) ∈ geomJumps :=
  C5_amended.2.2.1 _ (by decide)

/-! ## C6: the default board and the custom constructor -/

/-- C6 counterexample: the default-constructed board does not have 32 marbles
and its cell (2,3) is not empty. -/
theorem C6_counterexample :
    ¬ (popcount64 DEFAULT_BOARD = 32 ∧ getBit DEFAULT_BOARD 2 3 = 0) := by decide

/-- C6 (amended): the default-constructed board has exactly 36 marbles, with
cell (0,2) as the single empty playable cell; the custom constructor yields
the full board minus the requested cell when it is playable and falls back to
this same default whenever it is not. -/
theorem C6_amended :
    popcount64 DEFAULT_BOARD = 36 ∧
    (∀ r c : Nat, r < 7 → c < 7 → PLAYABLE r c →
      (getBit DEFAULT_BOARD r c = 0 ↔ r = 0 ∧ c = 2)) ∧
    (∀ r c : Nat, (r > 6 ∨ c > 6 ∨ ¬ PLAYABLE r c) → msBoardCustom r c = DEFAULT_BOARD) ∧
    (∀ r c : Nat, r < 7 → c < 7 → PLAYABLE r c →
      msBoardCustom r c = FULL_BOARD &&& not64 (1 <<< bitIndex r c)) := by
  refine ⟨by decide, ?_, ?_, ?_⟩
  · intro r c hr hc hp
    interval_cases r <;> interval_cases c <;> revert hp <;> decide
  · intro r c h
    rw [msBoardCustom, if_pos h]
  · intro r c hr hc hp
    rw [msBoardCustom, if_neg (by push_neg; exact ⟨by omega, by omega, hp⟩)]

/-- Witness for C6: the fallback at the unplayable corner (0,0), the custom
start at (2,3), and the emptiness characterisation at (0,2). -/
theorem C6_amended_witness :
    msBoardCustom 0 0 = DEFAULT_BOARD ∧
    msBoardCustom 2 3 = FULL_BOARD &&& not64 (1 <<< bitIndex 2 3) ∧
    (getBit DEFAULT_BOARD 0 2 = 0 ↔ 0 = 0 ∧ 2 = 2) :=
  ⟨C6_amended.2.2.1 0 0 (by decide), C6_amended.2.2.2 2 3 (by decide) (by decide) (by decide),
   C6_amended.2.1 0 2 (by decide) (by decide) (by decide)⟩

/-! ## C7: isValidMove performs an out-of-bounds read -/

/-- C7: for source coordinates outside the board with an in-range destination,
`msBoard::isValidMove` reads `PLAYABLE[row][col]` out of bounds (modelled as
`none`) instead of returning false, on every board. -/
theorem C7_isValidMove_oob : ∀ b : Nat, isValidMoveM b 7 2 5 2 = none := fun _ => rfl

/-! ## C10: getAMove versus isValidMove -/

/-- C10: `msBoard::getAMove` throws (modelled `some none`) exactly when
`isValidMove` returns false on the same arguments, and on a normal return the
move's set bit is exactly the destination cell's bit and its clear bits are
exactly the origin cell's and midpoint cell's bits. -/
theorem C10_getAMove_spec :
    ∀ (b : Nat) (row col toRow toCol : Int),
      (getAMoveM b row col toRow toCol = some none ↔
        isValidMoveM b row col toRow toCol = some false) ∧
      (∀ mv : Mv, getAMoveM b row col toRow toCol = some (some mv) →
        isValidMoveM b row col toRow toCol = some true ∧
        mv.setBit = 1 <<< bitIndex toRow.toNat toCol.toNat ∧
        mv.clearBits = (1 <<< bitIndex row.toNat col.toNat) |||
          (1 <<< bitIndex (((row + toRow) / 2).toNat) (((col + toCol) / 2).toNat))) := by
  intro b row col toRow toCol
  rcases h : isValidMoveM b row col toRow toCol with _ | ok
  · constructor
    · simp [getAMoveM, h]
    · intro mv hmv
      simp [getAMoveM, h] at hmv
  · cases ok
    · constructor
      · simp [getAMoveM, h]
      · intro mv hmv
        simp [getAMoveM, h] at hmv
    · constructor
      · simp [getAMoveM, h]
      · intro mv hmv
        rcases mv with ⟨ms, mc⟩
        simp [getAMoveM, h, Mv.mk.injEq] at hmv
        exact ⟨rfl, hmv.1.symm, hmv.2.symm⟩

/-- Witness for C10: on the default board, the jump from (0,4) over (0,3)
into the empty cell (0,2) is returned with exactly these masks. -/
theorem C10_getAMove_spec_witness :
    isValidMoveM DEFAULT_BOARD 0 4 0 2 = some true ∧
    (⟨1 <<< 61, (1 <<< 59) ||| (1 <<< 60)⟩ : Mv).setBit = 1 <<< bitIndex 0 2 ∧
    (⟨1 <<< 61, (1 <<< 59) ||| (1 <<< 60)⟩ : Mv).clearBits =
      (1 <<< bitIndex 0 4) ||| (1 <<< bitIndex 0 3) := by
  have h := (C10_getAMove_spec DEFAULT_BOARD 0 4 0 2).2
    ⟨1 <<< 61, (1 <<< 59) ||| (1 <<< 60)⟩ (by decide)
  exact ⟨h.1, h.2.1, h.2.2⟩


/-! ## C1: the reconstructed solution is not expressed in the caller's frame -/

/-- C1: on the board with marbles at (3,0) and (3,1) only (bits 42 and 41,
value 0x60000000000), `solve` returns a single move, the jump with set bit at
(3,4) and clear bits at (3,5),(3,6), which is not legal on the input board
(the legal solving jump is (3,0) over (3,1) into (3,2)); applying it does not
reach popcount 1.  The returned move is the 180-degree image of the correct
one: `getCanonicalBits` labels its 90- and 270-degree images opposite to
`transformBoard`, so `undoTransform` applies the canonicalising transform
again instead of its inverse. -/
theorem C1_returns_illegal_move :
    solve 0x60000000000 = [⟨0x4000000000, 0x3000000000⟩] ∧
    legalB 0x60000000000 ⟨0x4000000000, 0x3000000000⟩ = false ∧
    popcount64 (applyMoveB 0x60000000000 ⟨0x4000000000, 0x3000000000⟩) ≠ 1 := by
  refine ⟨by decide, by decide, by decide⟩

/-! ## C3: the pop branch never truncates the shared move buffer -/

/-- C3: on the board with marbles at (3,1),(3,2),(3,4),(3,5) (value
3710851743744), after five DFS iterations the top (child) frame is exhausted
(moveIndex = moveEnd = 6) with movesStart = 4 while the shared buffer holds 6
moves, the two at positions 4..5 appended by that frame; the sixth iteration
pops it and leaves the buffer bit-for-bit unchanged at length 6 instead of
truncating it to 4 (the source calls vector reserve, which never shrinks). -/
theorem C3_pop_keeps_buffer :
    (dfsIter 5 (initState 3710851743744)).map
        (fun st => (st.stack.map fun f => (f.moveIndex, f.moveEnd, f.movesStart),
          st.buffer.length))
      = some ([(6, 6, 4), (1, 4, 0)], 6) ∧
    (dfsIter 6 (initState 3710851743744)).map
        (fun st => (st.stack.map fun f => (f.moveIndex, f.moveEnd, f.movesStart),
          st.buffer.length))
      = some ([(1, 4, 0)], 6) ∧
    (dfsIter 6 (initState 3710851743744)).map (fun st => st.buffer)
      = (dfsIter 5 (initState 3710851743744)).map (fun st => st.buffer) := by
  refine ⟨by decide, by decide, by decide⟩

/-! ## Bit-level characterisation of the dihedral images -/

theorem testBit_ge7 {x : Nat} (hx : x < 128) {k : Nat} (hk : 7 ≤ k) : x.testBit k = false :=
  Nat.testBit_lt_two_pow (lt_of_lt_of_le (show x < 2 ^ 7 by omega)
    (Nat.pow_le_pow_right (by norm_num) hk))

theorem testBit_and_one (y i : Nat) : (y &&& 1).testBit i = (y.testBit i && decide (0 = i)) := by
  have h : (1 : Nat) = 2 ^ 0 := rfl
  rw [h, Nat.testBit_and, Nat.testBit_two_pow]

theorem testBit_and_pow (y j i : Nat) : (y &&& 2 ^ j).testBit i = (y.testBit i && decide (j = i)) := by
  rw [Nat.testBit_and, Nat.testBit_two_pow]

theorem getRow_lt (b r : Nat) : getRow b r < 128 := by
  have h : getRow b r ≤ 127 := Nat.and_le_right
  omega

theorem shl_le (x m n : Nat) (h : x ≤ m) : x <<< n ≤ m <<< n := by
  rw [Nat.shiftLeft_eq, Nat.shiftLeft_eq]
  exact Nat.mul_le_mul_right _ h

theorem shr_le (x n : Nat) : x >>> n ≤ x := by
  rw [Nat.shiftRight_eq_div_pow]
  exact Nat.div_le_self _ _

theorem reverse7_lt (x : Nat) : reverse7 x < 128 := by
  have h1 : (x &&& 0x01) <<< 6 ≤ 64 := shl_le _ 1 6 Nat.and_le_right
  have h2 : (x &&& 0x02) <<< 4 ≤ 32 := shl_le _ 2 4 Nat.and_le_right
  have h3 : (x &&& 0x04) <<< 2 ≤ 16 := shl_le _ 4 2 Nat.and_le_right
  have h4 : (x &&& 0x08) ≤ 8 := Nat.and_le_right
  have h5 : (x &&& 0x10) >>> 2 ≤ 16 := le_trans (shr_le _ _) Nat.and_le_right
  have h6 : (x &&& 0x20) >>> 4 ≤ 32 := le_trans (shr_le _ _) Nat.and_le_right
  have h7 : (x &&& 0x40) >>> 6 ≤ 64 := le_trans (shr_le _ _) Nat.and_le_right
  have e : (128 : Nat) = 2 ^ 7 := rfl
  rw [reverse7, e]
  refine Nat.or_lt_two_pow ?_ (by omega)
  refine Nat.or_lt_two_pow ?_ (by omega)
  refine Nat.or_lt_two_pow ?_ (by omega)
  refine Nat.or_lt_two_pow ?_ (by omega)
  refine Nat.or_lt_two_pow ?_ (by omega)
  exact Nat.or_lt_two_pow (by omega) (by omega)

theorem getCol_lt (b c : Nat) : getCol b c < 128 := by
  have k1 : ∀ s n : Nat, ((b >>> s) &&& 1) <<< n ≤ 1 <<< n := fun s n => shl_le _ 1 n Nat.and_le_right
  have k0 : (b >>> (ROW_IDX 6 - c)) &&& 1 ≤ 1 := Nat.and_le_right
  have e : (128 : Nat) = 2 ^ 7 := rfl
  rw [getCol, e]
  refine Nat.or_lt_two_pow ?_ (by have := k0; omega)
  refine Nat.or_lt_two_pow ?_ (by have := k1 (ROW_IDX 5 - c) 1; simp [Nat.shiftLeft_eq] at this ⊢; omega)
  refine Nat.or_lt_two_pow ?_ (by have := k1 (ROW_IDX 4 - c) 2; simp [Nat.shiftLeft_eq] at this ⊢; omega)
  refine Nat.or_lt_two_pow ?_ (by have := k1 (ROW_IDX 3 - c) 3; simp [Nat.shiftLeft_eq] at this ⊢; omega)
  refine Nat.or_lt_two_pow ?_ (by have := k1 (ROW_IDX 2 - c) 4; simp [Nat.shiftLeft_eq] at this ⊢; omega)
  exact Nat.or_lt_two_pow (by have := k1 (ROW_IDX 0 - c) 6; simp [Nat.shiftLeft_eq] at this ⊢; omega)
    (by have := k1 (ROW_IDX 1 - c) 5; simp [Nat.shiftLeft_eq] at this ⊢; omega)

theorem testBit_getRow (b r k : Nat) :
    (getRow b r).testBit k = (decide (k < 7) && b.testBit (rowShift r + k)) := by
  have h7 : (0x7F : Nat) = 2 ^ 7 - 1 := by norm_num
  rw [getRow, h7, Nat.testBit_and, Nat.testBit_shiftRight b, Nat.testBit_two_pow_sub_one,
    Bool.and_comm]

theorem reverse7_pow (x : Nat) :
    reverse7 x = ((x &&& 2 ^ 0) <<< 6) ||| ((x &&& 2 ^ 1) <<< 4) ||| ((x &&& 2 ^ 2) <<< 2) |||
      (x &&& 2 ^ 3) ||| ((x &&& 2 ^ 4) >>> 2) ||| ((x &&& 2 ^ 5) >>> 4) |||
      ((x &&& 2 ^ 6) >>> 6) := by
  norm_num [reverse7]

theorem testBit_reverse7 (x k : Nat) :
    (reverse7 x).testBit k = (decide (k < 7) && x.testBit (6 - k)) := by
  rcases Nat.lt_or_ge k 7 with hk | hk
  · interval_cases k <;>
      (simp only [reverse7_pow, Nat.testBit_or, Nat.testBit_shiftLeft,
        Nat.testBit_shiftRight, testBit_and_pow]; simp)
  · rw [testBit_ge7 (reverse7_lt x) hk]
    have h2 : decide (k < 7) = false := by simp; omega
    rw [h2, Bool.false_and]

theorem testBit_getCol (b c k : Nat) :
    (getCol b c).testBit k = (decide (k < 7) && b.testBit (ROW_IDX (6 - k) - c)) := by
  rcases Nat.lt_or_ge k 7 with hk | hk
  · interval_cases k <;>
      (simp only [getCol, Nat.testBit_or, Nat.testBit_shiftLeft, Nat.testBit_shiftRight,
        testBit_and_one, ROW_IDX]; simp)
  · rw [testBit_ge7 (getCol_lt b c) hk]
    have h2 : decide (k < 7) = false := by simp; omega
    rw [h2, Bool.false_and]

theorem testBit_shl7 (v s p : Nat) (hv : v < 128) :
    (v <<< s).testBit p = (decide (s ≤ p) && decide (p - s < 7) && v.testBit (p - s)) := by
  rw [Nat.testBit_shiftLeft]
  rcases Nat.lt_or_ge (p - s) 7 with h | h
  · simp [h]
  · rw [testBit_ge7 hv h]
    simp

theorem range7 : List.range 7 = [0, 1, 2, 3, 4, 5, 6] := rfl

theorem rowShift_le (r : Nat) : rowShift r ≤ 57 := by
  unfold rowShift ROW_IDX
  omega

theorem testBit_insertRow (acc r v p : Nat) (hv : v < 128) :
    (insertRow acc r v).testBit p =
      (if rowShift r ≤ p ∧ p - rowShift r < 7 then v.testBit (p - rowShift r)
       else (acc.testBit p && decide (p < 64))) := by
  have hmask : ∀ q, ((0x7F : Nat) <<< rowShift r).testBit q =
      (decide (rowShift r ≤ q) && decide (q - rowShift r < 7)) := by
    intro q
    rw [Nat.testBit_shiftLeft, show (0x7F : Nat) = 2 ^ 7 - 1 by norm_num,
      Nat.testBit_two_pow_sub_one]
  have hs : rowShift r ≤ 57 := rowShift_le r
  rcases Nat.lt_or_ge p 64 with hp | hp
  · rw [insertRow, Nat.testBit_or, Nat.testBit_and, testBit_not64 _ _ hp, hmask,
      testBit_shl7 _ _ _ hv]
    by_cases hw : rowShift r ≤ p ∧ p - rowShift r < 7
    · rw [if_pos hw]
      simp [hw.1, hw.2]
    · rw [if_neg hw]
      rcases not_and_or.mp hw with h | h <;> simp [h, hp]
  · have hw : ¬ (rowShift r ≤ p ∧ p - rowShift r < 7) := by omega
    rw [if_neg hw]
    rw [insertRow, Nat.testBit_or, Nat.testBit_and]
    have h1 : (v <<< rowShift r).testBit p = false := by
      rw [testBit_shl7 _ _ _ hv]
      have hx : ¬ (p - rowShift r < 7) := by omega
      simp [hx]
    have h2 : (not64 (0x7F <<< rowShift r)).testBit p = false := by
      rw [not64, Nat.testBit_xor, hmask]
      have hx : ¬ (p - rowShift r < 7) := by omega
      have hFF : (0xFFFFFFFFFFFFFFFF : Nat).testBit p = false := testBit_ge64 (by norm_num) hp
      simp [hx, hFF]
    rw [h1, h2]
    simp [hp]

set_option maxHeartbeats 4000000 in
/-- Bit-level characterisation of the images built inside `getCanonicalBits`:
cell (r,c) of the image labelled t shows cell `sigmaG t (r,c)` of the input. -/
theorem testBit_canonImage (b : Nat) (t : Transform) (r c : Nat) (hr : r < 7) (hc : c < 7) :
    (canonImage b t).testBit (bitIndex r c) =
      b.testBit (bitIndex (sigmaG t (r, c)).1 (sigmaG t (r, c)).2) := by
  cases t
  case d0 => rfl
  all_goals (
    interval_cases r <;> interval_cases c <;>
      (simp only [canonImage, range7, List.foldl, Nat.testBit_or,
        testBit_shl7 _ _ _ (reverse7_lt _), testBit_shl7 _ _ _ (getCol_lt _ _),
        testBit_shl7 _ _ _ (getRow_lt _ _), bitIndex, ROW_IDX, rowShift, sigmaG];
       simp [testBit_reverse7, testBit_getCol, testBit_getRow, ROW_IDX, rowShift,
         -Nat.testBit_zero]))

set_option maxHeartbeats 4000000 in
/-- Bit-level characterisation of `transformBoard`: it computes the image that
`getCanonicalBits` labels `tbLabel t` (the 90- and 270-degree labels are
swapped between the two functions). -/
theorem testBit_transformBoard (b : Nat) (t : Transform) (r c : Nat) (hr : r < 7) (hc : c < 7) :
    (transformBoard b t).testBit (bitIndex r c) =
      b.testBit (bitIndex (sigmaG (tbLabel t) (r, c)).1 (sigmaG (tbLabel t) (r, c)).2) := by
  cases t
  case d0 => rfl
  all_goals (
    interval_cases r <;> interval_cases c <;>
      (simp only [transformBoard, range7, List.foldl,
        testBit_insertRow _ _ _ _ (reverse7_lt _), testBit_insertRow _ _ _ _ (getCol_lt _ _),
        testBit_insertRow _ _ _ _ (getRow_lt _ _), bitIndex, ROW_IDX, rowShift, sigmaG, tbLabel];
       simp [testBit_reverse7, testBit_getCol, testBit_getRow, ROW_IDX, rowShift,
         -Nat.testBit_zero]))

/-! ## Window support and extensionality -/

theorem wsupp_canonImage (b : Nat) (hb : WSupp b) (t : Transform) : WSupp (canonImage b t) := by
  cases t
  case d0 => exact hb
  all_goals (
    intro i hi
    simp only [canonImage, range7, List.foldl, Nat.testBit_or,
      testBit_shl7 _ _ _ (reverse7_lt _), testBit_shl7 _ _ _ (getCol_lt _ _),
      testBit_shl7 _ _ _ (getRow_lt _ _), Nat.zero_testBit, Bool.false_or,
      Bool.or_eq_true, Bool.and_eq_true, decide_eq_true_eq, rowShift, ROW_IDX,
      or_assoc] at hi
    rcases hi with ⟨⟨h1, h2⟩, _⟩ | ⟨⟨h1, h2⟩, _⟩ | ⟨⟨h1, h2⟩, _⟩ | ⟨⟨h1, h2⟩, _⟩ |
      ⟨⟨h1, h2⟩, _⟩ | ⟨⟨h1, h2⟩, _⟩ | ⟨⟨h1, h2⟩, _⟩ <;> exact ⟨by omega, by omega⟩)

theorem wsupp_zero : WSupp 0 := by
  intro i hi
  rw [Nat.zero_testBit] at hi
  cases hi

theorem wsupp_insertRow (acc r v : Nat) (hacc : WSupp acc) (hv : v < 128) (hr : r < 7) :
    WSupp (insertRow acc r v) := by
  intro i hi
  rw [testBit_insertRow _ _ _ _ hv] at hi
  have hrs : 15 ≤ rowShift r ∧ rowShift r ≤ 57 := by
    unfold rowShift ROW_IDX
    omega
  split at hi
  · next h => omega
  · rw [Bool.and_eq_true, decide_eq_true_eq] at hi
    exact ⟨(hacc i hi.1).1, hi.2⟩

set_option maxHeartbeats 1000000 in
theorem wsupp_transformBoard (b : Nat) (hb : WSupp b) (t : Transform) :
    WSupp (transformBoard b t) := by
  cases t
  case d0 => exact hb
  all_goals (
    simp only [transformBoard, range7, List.foldl]
    refine wsupp_insertRow _ _ _
      (wsupp_insertRow _ _ _
        (wsupp_insertRow _ _ _
          (wsupp_insertRow _ _ _
            (wsupp_insertRow _ _ _
              (wsupp_insertRow _ _ _ (wsupp_insertRow _ _ _ wsupp_zero ?_ ?_) ?_ ?_) ?_ ?_)
              ?_ ?_) ?_ ?_) ?_ ?_) ?_ ?_
    all_goals first | exact reverse7_lt _ | exact getCol_lt _ _ | exact getRow_lt _ _ | decide)

theorem window_ext {x y : Nat} (hx : WSupp x) (hy : WSupp y)
    (h : ∀ r c : Nat, r < 7 → c < 7 → x.testBit (bitIndex r c) = y.testBit (bitIndex r c)) :
    x = y := by
  apply Nat.eq_of_testBit_eq
  intro p
  by_cases hp : 15 ≤ p ∧ p < 64
  · obtain ⟨r, c, hr, hc, hep⟩ : ∃ r c : Nat, r < 7 ∧ c < 7 ∧ p = bitIndex r c := by
      refine ⟨(63 - p) / 7, (63 - p) % 7, by omega, by omega, ?_⟩
      unfold bitIndex ROW_IDX
      omega
    rw [hep]
    exact h r c hr hc
  · rcases hxb : x.testBit p with _ | _
    · rcases hyb : y.testBit p with _ | _
      · rfl
      · exact absurd (hy p hyb) hp
    · exact absurd (hx p hxb) hp

theorem sigmaG_lt (t : Transform) (r c : Nat) (hr : r < 7) (hc : c < 7) :
    (sigmaG t (r, c)).1 < 7 ∧ (sigmaG t (r, c)).2 < 7 := by
  cases t <;> simp [sigmaG] <;> omega

theorem sigmaG_comp (s t : Transform) (r c : Nat) (hr : r < 7) (hc : c < 7) :
    sigmaG s (sigmaG t (r, c)) = sigmaG (compG s t) (r, c) := by
  cases s <;> cases t <;> simp [sigmaG, compG, Prod.ext_iff] <;> omega

theorem compG_surj (s u : Transform) : ∃ t, compG s t = u := by
  cases s <;> cases u <;> first
    | exact ⟨.d0, rfl⟩ | exact ⟨.d90, rfl⟩ | exact ⟨.d180, rfl⟩ | exact ⟨.d270, rfl⟩
    | exact ⟨.fH, rfl⟩ | exact ⟨.fV, rfl⟩ | exact ⟨.fD, rfl⟩ | exact ⟨.fA, rfl⟩

theorem canonImage_comp (b : Nat) (hb : WSupp b) (s t : Transform) :
    canonImage (canonImage b s) t = canonImage b (compG s t) := by
  apply window_ext (wsupp_canonImage _ (wsupp_canonImage _ hb _) _) (wsupp_canonImage _ hb _)
  intro r c hr hc
  have hlt := sigmaG_lt t r c hr hc
  rw [testBit_canonImage _ _ _ _ hr hc, testBit_canonImage _ _ _ _ hlt.1 hlt.2,
    testBit_canonImage _ _ _ _ hr hc]
  simp only [Prod.mk.eta]
  rw [sigmaG_comp s t r c hr hc]

theorem mem_allTransforms (t : Transform) : t ∈ allTransforms := by
  cases t <;> simp [allTransforms]

theorem canonFold_le (b : Nat) (l : List Transform) (p : Nat × Transform) :
    (l.foldl (fun best t => if canonImage b t < best.1 then (canonImage b t, t) else best) p).1
      ≤ p.1 ∧
    ∀ t ∈ l,
      (l.foldl (fun best t => if canonImage b t < best.1 then (canonImage b t, t) else best) p).1
        ≤ canonImage b t := by
  induction l generalizing p with
  | nil => exact ⟨le_refl _, by simp⟩
  | cons hd tl ih =>
    simp only [List.foldl_cons]
    by_cases h : canonImage b hd < p.1
    · rw [if_pos h]
      refine ⟨le_trans (ih (canonImage b hd, hd)).1 (le_of_lt h), ?_⟩
      intro t ht
      rcases List.mem_cons.mp ht with rfl | ht
      · exact (ih (canonImage b t, t)).1
      · exact (ih (canonImage b hd, hd)).2 t ht
    · rw [if_neg h]
      push_neg at h
      refine ⟨(ih p).1, ?_⟩
      intro t ht
      rcases List.mem_cons.mp ht with rfl | ht
      · exact le_trans (ih p).1 h
      · exact (ih p).2 t ht

theorem canonFold_mem (b : Nat) (l : List Transform) (p : Nat × Transform) :
    (l.foldl (fun best t => if canonImage b t < best.1 then (canonImage b t, t) else best) p).1
        = p.1 ∨
    ∃ t ∈ l,
      (l.foldl (fun best t => if canonImage b t < best.1 then (canonImage b t, t) else best) p).1
        = canonImage b t := by
  induction l generalizing p with
  | nil => exact Or.inl rfl
  | cons hd tl ih =>
    simp only [List.foldl_cons]
    by_cases h : canonImage b hd < p.1
    · rw [if_pos h]
      rcases ih (canonImage b hd, hd) with h1 | ⟨t, ht, h1⟩
      · exact Or.inr ⟨hd, List.mem_cons_self hd tl, h1⟩
      · exact Or.inr ⟨t, List.mem_cons_of_mem _ ht, h1⟩
    · rw [if_neg h]
      rcases ih p with h1 | ⟨t, ht, h1⟩
      · exact Or.inl h1
      · exact Or.inr ⟨t, List.mem_cons_of_mem _ ht, h1⟩

theorem canonB_le_image (b : Nat) (t : Transform) : canonB b ≤ canonImage b t :=
  (canonFold_le b allTransforms (b, .d0)).2 t (mem_allTransforms t)

theorem canonB_is_image (b : Nat) : ∃ t, canonB b = canonImage b t := by
  rcases canonFold_mem b allTransforms (b, .d0) with h | ⟨t, _, h⟩
  · exact ⟨.d0, h⟩
  · exact ⟨t, h⟩

theorem canonB_image (b : Nat) (hb : WSupp b) (s : Transform) :
    canonB (canonImage b s) = canonB b := by
  apply le_antisymm
  · obtain ⟨t0, ht0⟩ := canonB_is_image b
    obtain ⟨t, ht⟩ := compG_surj s t0
    calc canonB (canonImage b s) ≤ canonImage (canonImage b s) t := canonB_le_image _ t
      _ = canonImage b (compG s t) := canonImage_comp b hb s t
      _ = canonB b := by rw [ht, ← ht0]
  · obtain ⟨t1, ht1⟩ := canonB_is_image (canonImage b s)
    rw [ht1, canonImage_comp b hb s t1]
    exact canonB_le_image b _

theorem wsupp_of_playinv {b : Nat} (hb : PlayInv b) : WSupp b := by
  intro i hi
  have h2 : (b &&& FULL_BOARD).testBit i = true := by rw [hb]; exact hi
  rw [Nat.testBit_and, Bool.and_eq_true] at h2
  have hf := h2.2
  rcases Nat.lt_or_ge i 64 with h | h
  · refine ⟨?_, h⟩
    by_contra hlt
    push_neg at hlt
    interval_cases i <;> revert hf <;> decide
  · rw [testBit_ge64 (by norm_num [FULL_BOARD]) h] at hf
    cases hf

theorem transformBoard_eq_canonImage (b : Nat) (hb : WSupp b) (t : Transform) :
    transformBoard b t = canonImage b (tbLabel t) := by
  apply window_ext (wsupp_transformBoard b hb t) (wsupp_canonImage b hb _)
  intro r c hr hc
  rw [testBit_transformBoard _ _ _ _ hr hc, testBit_canonImage _ _ _ _ hr hc]

/-! ## C8: canonical form is invariant under the dihedral transforms -/

/-- C8: for every board satisfying the playable invariant and every one of the
eight dihedral transforms, the board component of `getCanonicalBits` applied
to `transformBoard b t` equals the board component of `getCanonicalBits`
applied to b. -/
theorem C8_canonicalize_transform (b : Nat) (hb : PlayInv b) (t : Transform) :
    (canonicalPair (transformBoard b t)).1 = (canonicalPair b).1 := by
  have hw := wsupp_of_playinv hb
  rw [transformBoard_eq_canonImage b hw t]
  exact canonB_image b hw (tbLabel t)

/-- Witness for C8: the default board rotated by 90 degrees has the same
canonical board as the default board. -/
theorem C8_canonicalize_transform_witness :
    (canonicalPair (transformBoard DEFAULT_BOARD .d90)).1 = (canonicalPair DEFAULT_BOARD).1 :=
  C8_canonicalize_transform DEFAULT_BOARD (show DEFAULT_BOARD &&& FULL_BOARD = DEFAULT_BOARD by decide) .d90

/-! ## Transfer lemmas for the canonical-space search -/

theorem playinv_bit {x : Nat} (hx : PlayInv x) {i : Nat} (hi : x.testBit i = true) :
    FULL_BOARD.testBit i = true := by
  have h2 : (x &&& FULL_BOARD).testBit i = true := by rw [hx]; exact hi
  rw [Nat.testBit_and, Bool.and_eq_true] at h2
  exact h2.2

theorem playinv_of_bits {x : Nat}
    (h : ∀ i, x.testBit i = true → FULL_BOARD.testBit i = true) : PlayInv x := by
  apply Nat.eq_of_testBit_eq
  intro i
  rw [Nat.testBit_and]
  rcases hb : x.testBit i
  · simp
  · rw [h i hb]
    rfl

theorem playinv_lt {x : Nat} (hx : PlayInv x) : x < 2 ^ 64 := by
  calc x = x &&& FULL_BOARD := hx.symm
    _ ≤ FULL_BOARD := Nat.and_le_right
    _ < 2 ^ 64 := by norm_num [FULL_BOARD]

theorem playinv_or {x y : Nat} (hx : PlayInv x) (hy : PlayInv y) : PlayInv (x ||| y) := by
  apply playinv_of_bits
  intro i hi
  rw [Nat.testBit_or, Bool.or_eq_true] at hi
  rcases hi with h | h
  · exact playinv_bit hx h
  · exact playinv_bit hy h

theorem playinv_and_left {x : Nat} (z : Nat) (hx : PlayInv x) : PlayInv (x &&& z) := by
  apply playinv_of_bits
  intro i hi
  rw [Nat.testBit_and, Bool.and_eq_true] at hi
  exact playinv_bit hx hi.1

theorem moves_masks : ∀ m ∈ ALL_MOVES,
    m.setBit &&& FULL_BOARD = m.setBit ∧ m.clearBits &&& FULL_BOARD = m.clearBits := by decide

theorem move_playinv {m : Mv} (hm : m ∈ ALL_MOVES) :
    PlayInv m.setBit ∧ PlayInv m.clearBits := moves_masks m hm

theorem playinv_apply {b : Nat} {m : Mv} (hb : PlayInv b) (hm : m ∈ ALL_MOVES) :
    PlayInv (applyMoveB b m) :=
  playinv_and_left _ (playinv_or hb (move_playinv hm).1)

theorem sigma_playable : ∀ t ∈ allTransforms, ∀ r, r < 7 → ∀ c, c < 7 →
    PLAYABLE (sigmaG t (r, c)).1 (sigmaG t (r, c)).2 = PLAYABLE r c := by decide

theorem full_bit_playable : ∀ r, r < 7 → ∀ c, c < 7 →
    FULL_BOARD.testBit (bitIndex r c) = PLAYABLE r c := by decide

theorem window_cell {i : Nat} (h1 : 15 ≤ i) (h2 : i < 64) :
    ∃ r c : Nat, r < 7 ∧ c < 7 ∧ i = bitIndex r c := by
  refine ⟨(63 - i) / 7, (63 - i) % 7, by omega, by omega, ?_⟩
  unfold bitIndex ROW_IDX
  omega

theorem playinv_canonImage {b : Nat} (hb : PlayInv b) (t : Transform) :
    PlayInv (canonImage b t) := by
  apply playinv_of_bits
  intro i hi
  have hw := wsupp_canonImage b (wsupp_of_playinv hb) t i hi
  obtain ⟨r, c, hr, hc, rfl⟩ := window_cell hw.1 hw.2
  rw [testBit_canonImage _ _ _ _ hr hc] at hi
  have hlt := sigmaG_lt t r c hr hc
  have h2 := playinv_bit hb hi
  rw [full_bit_playable _ hlt.1 _ hlt.2] at h2
  rw [full_bit_playable _ hr _ hc, ← sigma_playable t (mem_allTransforms t) r hr c hc]
  exact h2

theorem wsupp_and {x : Nat} (y : Nat) (hx : WSupp x) : WSupp (x &&& y) := by
  intro i hi
  rw [Nat.testBit_and, Bool.and_eq_true] at hi
  exact hx i hi.1

theorem wsupp_or {x y : Nat} (hx : WSupp x) (hy : WSupp y) : WSupp (x ||| y) := by
  intro i hi
  rw [Nat.testBit_or, Bool.or_eq_true] at hi
  rcases hi with h | h
  · exact hx i h
  · exact hy i h

theorem compG_inv : ∀ t ∈ allTransforms, compG t (inverseTransform t) = Transform.d0 ∧
    compG (inverseTransform t) t = Transform.d0 := by decide

theorem canonImage_d0 (x : Nat) : canonImage x .d0 = x := rfl

theorem canonImage_inj {x y : Nat} (hx : WSupp x) (hy : WSupp y) (t : Transform)
    (h : canonImage x t = canonImage y t) : x = y := by
  have h1 : canonImage (canonImage x t) (inverseTransform t) =
      canonImage (canonImage y t) (inverseTransform t) := by rw [h]
  rw [canonImage_comp x hx, canonImage_comp y hy,
    (compG_inv t (mem_allTransforms t)).1, canonImage_d0, canonImage_d0] at h1
  exact h1

theorem canonImage_and {x y : Nat} (hx : WSupp x) (hy : WSupp y) (t : Transform) :
    canonImage (x &&& y) t = canonImage x t &&& canonImage y t := by
  apply window_ext (wsupp_canonImage _ (wsupp_and y hx) t)
    (wsupp_and _ (wsupp_canonImage _ hx t))
  intro r c hr hc
  rw [testBit_canonImage _ _ _ _ hr hc, Nat.testBit_and, Nat.testBit_and,
    testBit_canonImage _ _ _ _ hr hc, testBit_canonImage _ _ _ _ hr hc]

theorem canonImage_zero : ∀ t ∈ allTransforms, canonImage 0 t = 0 := by decide

theorem wsupp_zero2 : WSupp 0 := wsupp_zero

theorem lt64_of_wsupp {x : Nat} (hx : WSupp x) : x < 2 ^ 64 := by
  apply Nat.lt_pow_two_of_testBit
  intro i hi
  rcases hb : x.testBit i
  · rfl
  · exact absurd (hx i hb).2 (by omega)

theorem legalB_iff {b : Nat} (hb : b < 2 ^ 64) (m : Mv) (hset : m.setBit < 2 ^ 64) :
    legalB b m = true ↔ (b &&& m.clearBits = m.clearBits ∧ b &&& m.setBit = 0) := by
  rw [legalB, Bool.and_eq_true, beq_iff_eq, beq_iff_eq]
  have main : ((not64 b) &&& m.setBit = m.setBit) ↔ (b &&& m.setBit = 0) := by
    constructor
    · intro h2
      apply Nat.eq_of_testBit_eq
      intro i
      have e2 := congrArg (fun x => x.testBit i) h2
      simp only [Nat.testBit_and] at e2 ⊢
      rw [Nat.zero_testBit]
      rcases Nat.lt_or_ge i 64 with hi | hi
      · rw [testBit_not64 _ _ hi] at e2
        revert e2
        cases b.testBit i <;> cases m.setBit.testBit i <;> simp
      · rw [testBit_ge64 hset hi]
        simp
    · intro h2
      apply Nat.eq_of_testBit_eq
      intro i
      have e2 := congrArg (fun x => x.testBit i) h2
      simp only [Nat.testBit_and, Nat.zero_testBit] at e2
      rw [Nat.testBit_and]
      rcases Nat.lt_or_ge i 64 with hi | hi
      · rw [testBit_not64 _ _ hi]
        revert e2
        cases b.testBit i <;> cases m.setBit.testBit i <;> simp
      · rw [testBit_ge64 hset hi]
        simp
  rw [main]

theorem legal_image {b : Nat} (hb : PlayInv b) {m : Mv} (hm : m ∈ ALL_MOVES) (t : Transform) :
    legalB (canonImage b t) (moveImage t m) = legalB b m := by
  have hmp := move_playinv hm
  have hbw := wsupp_of_playinv hb
  have hsw := wsupp_of_playinv hmp.1
  have hcw := wsupp_of_playinv hmp.2
  rw [Bool.eq_iff_iff]
  rw [legalB_iff (lt64_of_wsupp (wsupp_canonImage _ hbw t)) _
    (lt64_of_wsupp (wsupp_canonImage _ hsw t)), legalB_iff (playinv_lt hb) _ (playinv_lt hmp.1)]
  simp only [moveImage]
  constructor
  · rintro ⟨h1, h2⟩
    constructor
    · apply canonImage_inj (wsupp_and _ hbw) hcw t
      rw [canonImage_and hbw hcw]
      exact h1
    · apply canonImage_inj (wsupp_and _ hbw) wsupp_zero t
      rw [canonImage_and hbw hsw, canonImage_zero t (mem_allTransforms t)]
      exact h2
  · rintro ⟨h1, h2⟩
    constructor
    · rw [← canonImage_and hbw hcw, h1]
    · rw [← canonImage_and hbw hsw, h2]
      exact canonImage_zero t (mem_allTransforms t)

theorem testBit_applyMove (b : Nat) (m : Mv) (p : Nat) (hp : p < 64) :
    (applyMoveB b m).testBit p =
      ((b.testBit p || m.setBit.testBit p) && !m.clearBits.testBit p) := by
  rw [applyMoveB, Nat.testBit_and, Nat.testBit_or, testBit_not64 _ _ hp]

theorem apply_image {b : Nat} (hbw : WSupp b) {m : Mv} (hms : WSupp m.setBit)
    (hmc : WSupp m.clearBits) (t : Transform) :
    canonImage (applyMoveB b m) t = applyMoveB (canonImage b t) (moveImage t m) := by
  apply window_ext
  · exact wsupp_canonImage _ (wsupp_and _ (wsupp_or hbw hms)) t
  · exact wsupp_and _ (wsupp_or (wsupp_canonImage _ hbw t) (wsupp_canonImage _ hms t))
  intro r c hr hc
  have hlt := sigmaG_lt t r c hr hc
  have hp1 : bitIndex r c < 64 := by unfold bitIndex ROW_IDX; omega
  have hp2 : bitIndex (sigmaG t (r, c)).1 (sigmaG t (r, c)).2 < 64 := by
    unfold bitIndex ROW_IDX
    omega
  rw [testBit_canonImage _ _ _ _ hr hc, testBit_applyMove _ _ _ hp2,
    testBit_applyMove _ _ _ hp1]
  simp only [moveImage]
  rw [testBit_canonImage _ _ _ _ hr hc, testBit_canonImage _ _ _ _ hr hc,
    testBit_canonImage _ _ _ _ hr hc]

theorem moveImage_mem_all : ∀ t ∈ allTransforms, ∀ m ∈ ALL_MOVES,
    moveImage t m ∈ ALL_MOVES := by decide

theorem validMoves_mem {b : Nat} {m : Mv} :
    m ∈ validMovesB b ↔ m ∈ ALL_MOVES ∧ legalB b m = true := by
  simp [validMovesB, List.mem_filter]

theorem validMoves_image {b : Nat} (hb : PlayInv b) (t : Transform) {m : Mv}
    (h : m ∈ validMovesB b) : moveImage t m ∈ validMovesB (canonImage b t) := by
  rw [validMoves_mem] at h ⊢
  exact ⟨moveImage_mem_all t (mem_allTransforms t) m h.1,
    by rw [legal_image hb h.1 t]; exact h.2⟩

/-! ## Popcount under the dihedral images -/

theorem popFinset (x : Nat) :
    popcount64 x = ((Finset.range 64).filter fun i => x.testBit i).card := by
  rw [popcount64]
  induction (64 : Nat) with
  | zero => rfl
  | succ n ih =>
    rw [List.range_succ, Finset.range_succ, List.countP_append, Finset.filter_insert]
    by_cases h : x.testBit n
    · rw [if_pos h, Finset.card_insert_of_not_mem (by simp), ih]
      simp [h]
    · rw [if_neg h, ih]
      simp [h]

theorem dec_enc {r c : Nat} (hr : r < 7) (hc : c < 7) :
    (63 - bitIndex r c) / 7 = r ∧ (63 - bitIndex r c) % 7 = c := by
  unfold bitIndex ROW_IDX
  omega

theorem pop_window {x : Nat} (hx : WSupp x) :
    popcount64 x =
      ((Finset.range 7 ×ˢ Finset.range 7).filter fun rc =>
        x.testBit (bitIndex rc.1 rc.2)).card := by
  rw [popFinset]
  refine Finset.card_bij' (fun p _ => ((63 - p) / 7, (63 - p) % 7))
    (fun rc _ => bitIndex rc.1 rc.2) ?hi ?hj ?hleft ?hright
  case hi =>
    intro p hp
    dsimp only
    obtain ⟨_, hp2⟩ := Finset.mem_filter.mp hp
    have hw := hx p hp2
    obtain ⟨r, c, hr, hc, hpe⟩ := window_cell hw.1 hw.2
    subst hpe
    obtain ⟨e1, e2⟩ := dec_enc hr hc
    rw [Finset.mem_filter, Finset.mem_product, e1, e2]
    exact ⟨⟨Finset.mem_range.mpr hr, Finset.mem_range.mpr hc⟩, hp2⟩
  case hj =>
    intro rc hrc
    dsimp only
    obtain ⟨hm, hbit⟩ := Finset.mem_filter.mp hrc
    rw [Finset.mem_product, Finset.mem_range, Finset.mem_range] at hm
    rw [Finset.mem_filter, Finset.mem_range]
    constructor
    · have hr := hm.1
      have hc := hm.2
      unfold bitIndex ROW_IDX
      omega
    · exact hbit
  case hleft =>
    intro p hp
    dsimp only
    obtain ⟨_, hp2⟩ := Finset.mem_filter.mp hp
    have hw := hx p hp2
    unfold bitIndex ROW_IDX
    omega
  case hright =>
    intro rc hrc
    dsimp only
    obtain ⟨hm, _⟩ := Finset.mem_filter.mp (hrc)
    rw [Finset.mem_product, Finset.mem_range, Finset.mem_range] at hm
    obtain ⟨e1, e2⟩ := dec_enc hm.1 hm.2
    exact Prod.ext_iff.mpr ⟨e1, e2⟩

theorem sigmaG_d0 (rc : Nat × Nat) : sigmaG .d0 rc = rc := rfl

theorem sigma_inj : ∀ t ∈ allTransforms, ∀ r, r < 7 → ∀ c, c < 7 → ∀ r2, r2 < 7 →
    ∀ c2, c2 < 7 → sigmaG t (r, c) = sigmaG t (r2, c2) → r = r2 ∧ c = c2 := by decide

set_option maxHeartbeats 1000000 in
theorem popcount_image {b : Nat} (hb : WSupp b) (t : Transform) :
    popcount64 (canonImage b t) = popcount64 b := by
  rw [pop_window (wsupp_canonImage b hb t), pop_window hb]
  refine Finset.card_bij (fun rc _ => sigmaG t rc) ?hi ?hinj ?hsurj
  case hi =>
    intro rc hrc
    dsimp only
    obtain ⟨hm, hbit⟩ := Finset.mem_filter.mp hrc
    rw [Finset.mem_product, Finset.mem_range, Finset.mem_range] at hm
    have hlt := sigmaG_lt t rc.1 rc.2 hm.1 hm.2
    rw [Finset.mem_filter, Finset.mem_product, Finset.mem_range, Finset.mem_range]
    have hchar := testBit_canonImage b t rc.1 rc.2 hm.1 hm.2
    simp only [Prod.mk.eta] at hchar hlt
    refine ⟨⟨hlt.1, hlt.2⟩, ?_⟩
    rw [← hchar]
    exact hbit
  case hinj =>
    intro rc1 h1 rc2 h2 heq
    dsimp only at heq
    obtain ⟨hm1, _⟩ := Finset.mem_filter.mp h1
    obtain ⟨hm2, _⟩ := Finset.mem_filter.mp h2
    rw [Finset.mem_product, Finset.mem_range, Finset.mem_range] at hm1 hm2
    have := sigma_inj t (mem_allTransforms t) rc1.1 hm1.1 rc1.2 hm1.2 rc2.1 hm2.1 rc2.2 hm2.2
      (by simpa [Prod.mk.eta] using heq)
    exact Prod.ext_iff.mpr ⟨this.1, this.2⟩
  case hsurj =>
    intro q hq
    obtain ⟨hm, hbit⟩ := Finset.mem_filter.mp hq
    rw [Finset.mem_product, Finset.mem_range, Finset.mem_range] at hm
    have hlt := sigmaG_lt (inverseTransform t) q.1 q.2 hm.1 hm.2
    simp only [Prod.mk.eta] at hlt
    have hcomp := sigmaG_comp t (inverseTransform t) q.1 q.2 hm.1 hm.2
    simp only [Prod.mk.eta, (compG_inv t (mem_allTransforms t)).1, sigmaG_d0] at hcomp
    refine ⟨sigmaG (inverseTransform t) q, ?_, ?_⟩
    · rw [Finset.mem_filter, Finset.mem_product, Finset.mem_range, Finset.mem_range]
      refine ⟨⟨hlt.1, hlt.2⟩, ?_⟩
      have hchar := testBit_canonImage b t (sigmaG (inverseTransform t) q).1
        (sigmaG (inverseTransform t) q).2 hlt.1 hlt.2
      simp only [Prod.mk.eta] at hchar
      rw [hchar, hcomp]
      exact hbit
    · dsimp only
      exact hcomp

/-! ## Canonical board corollaries -/

theorem wsupp_canonB {b : Nat} (hb : WSupp b) : WSupp (canonB b) := by
  obtain ⟨t, ht⟩ := canonB_is_image b
  rw [ht]
  exact wsupp_canonImage b hb t

theorem playinv_canonB {b : Nat} (hb : PlayInv b) : PlayInv (canonB b) := by
  obtain ⟨t, ht⟩ := canonB_is_image b
  rw [ht]
  exact playinv_canonImage hb t

theorem canonB_idem {b : Nat} (hb : WSupp b) : canonB (canonB b) = canonB b := by
  obtain ⟨t, ht⟩ := canonB_is_image b
  conv_lhs => rw [ht]
  exact canonB_image b hb t

theorem popcount_canonB {b : Nat} (hb : WSupp b) : popcount64 (canonB b) = popcount64 b := by
  obtain ⟨t, ht⟩ := canonB_is_image b
  rw [ht]
  exact popcount_image hb t

/-! ## Injectivity and bound of the 37-bit packing -/

theorem boardToBits_pow (b : Nat) :
    boardToBits b = ((b >>> 17) &&& (2 ^ 3 - 1)) |||
      (((b >>> 17 >>> 6) &&& (2 ^ 5 - 1)) <<< 3) |||
      (((b >>> 17 >>> 6 >>> 6) &&& (2 ^ 21 - 1)) <<< 8) |||
      (((b >>> 17 >>> 6 >>> 6 >>> 22) &&& (2 ^ 5 - 1)) <<< 29) |||
      (((b >>> 17 >>> 6 >>> 6 >>> 22 >>> 8) &&& (2 ^ 3 - 1)) <<< 34) := by
  norm_num [boardToBits]

theorem testBit_boardToBits (b : Nat) (j : Nat) (hj : j < 37) :
    (boardToBits b).testBit j = b.testBit (packSrc j) := by
  interval_cases j <;>
    (simp only [boardToBits_pow, Nat.testBit_or, Nat.testBit_shiftLeft,
      Nat.testBit_shiftRight, Nat.testBit_and, Nat.testBit_two_pow_sub_one, packSrc];
     simp)

theorem playable_packed : ∀ p, p < 64 → FULL_BOARD.testBit p = true →
    ∃ j, j < 37 ∧ packSrc j = p := by decide

theorem boardToBits_inj {x y : Nat} (hx : PlayInv x) (hy : PlayInv y)
    (h : boardToBits x = boardToBits y) : x = y := by
  apply Nat.eq_of_testBit_eq
  intro i
  rcases Nat.lt_or_ge i 64 with hi | hi
  · rcases hF : FULL_BOARD.testBit i
    · rcases hxb : x.testBit i
      · rcases hyb : y.testBit i
        · rfl
        · rw [playinv_bit hy hyb] at hF
          cases hF
      · rw [playinv_bit hx hxb] at hF
        cases hF
    · obtain ⟨j, hj, hpj⟩ := playable_packed i hi hF
      have e := congrArg (fun z => z.testBit j) h
      simp only at e
      rw [testBit_boardToBits x j hj, testBit_boardToBits y j hj, hpj] at e
      exact e
  · rw [testBit_ge64 (playinv_lt hx) hi, testBit_ge64 (playinv_lt hy) hi]

theorem boardToBits_lt (b : Nat) : boardToBits b < 2 ^ 37 := by
  rw [boardToBits_pow]
  have h1 : (b >>> 17) &&& (2 ^ 3 - 1) < 2 ^ 37 :=
    lt_of_le_of_lt Nat.and_le_right (by norm_num)
  have h2 : ((b >>> 17 >>> 6) &&& (2 ^ 5 - 1)) <<< 3 ≤ (2 ^ 5 - 1) <<< 3 :=
    shl_le _ _ _ Nat.and_le_right
  have h3 : ((b >>> 17 >>> 6 >>> 6) &&& (2 ^ 21 - 1)) <<< 8 ≤ (2 ^ 21 - 1) <<< 8 :=
    shl_le _ _ _ Nat.and_le_right
  have h4 : ((b >>> 17 >>> 6 >>> 6 >>> 22) &&& (2 ^ 5 - 1)) <<< 29 ≤ (2 ^ 5 - 1) <<< 29 :=
    shl_le _ _ _ Nat.and_le_right
  have h5 : ((b >>> 17 >>> 6 >>> 6 >>> 22 >>> 8) &&& (2 ^ 3 - 1)) <<< 34 ≤ (2 ^ 3 - 1) <<< 34 :=
    shl_le _ _ _ Nat.and_le_right
  rw [Nat.shiftLeft_eq] at h2 h3 h4 h5
  refine Nat.or_lt_two_pow ?_ (by norm_num at h5 ⊢; omega)
  refine Nat.or_lt_two_pow ?_ (by norm_num at h4 ⊢; omega)
  refine Nat.or_lt_two_pow ?_ (by norm_num at h3 ⊢; omega)
  exact Nat.or_lt_two_pow h1 (by norm_num at h2 ⊢; omega)

/-! ## Equivalence of real and canonical-space solvability -/

theorem moveImage_inv {m : Mv} (hm : m ∈ ALL_MOVES) (t : Transform) :
    moveImage t (moveImage (inverseTransform t) m) = m := by
  have hp := move_playinv hm
  simp only [moveImage]
  rw [canonImage_comp _ (wsupp_of_playinv hp.1), canonImage_comp _ (wsupp_of_playinv hp.2),
    (compG_inv t (mem_allTransforms t)).2, canonImage_d0, canonImage_d0]

theorem seq_to_hop : ∀ (ms : List Mv) (b c : Nat) (t : Transform), PlayInv b →
    c = canonImage b t → legalSeq b ms → ms ≠ [] → popcount64 (playSeq b ms) = 1 →
    ∃ y, Relation.ReflTransGen HopStep c y ∧ HopWin y := by
  intro ms
  induction ms with
  | nil => intro b c t _ _ _ hne _; exact absurd rfl hne
  | cons m ms ih =>
    intro b c t hb hc hleg _ hwin
    obtain ⟨hmem, hlegal, hrest⟩ := hleg
    have hbw := wsupp_of_playinv hb
    have hmp := move_playinv hmem
    have hmv : m ∈ validMovesB b := validMoves_mem.mpr ⟨hmem, hlegal⟩
    have hmv2 : moveImage t m ∈ validMovesB c := by
      rw [hc]
      exact validMoves_image hb t hmv
    have happ : applyMoveB c (moveImage t m) = canonImage (applyMoveB b m) t := by
      rw [hc, ← apply_image hbw (wsupp_of_playinv hmp.1) (wsupp_of_playinv hmp.2) t]
    have hb2 : PlayInv (applyMoveB b m) := playinv_apply hb hmem
    rcases ms with _ | ⟨m2, ms2⟩
    · refine ⟨c, Relation.ReflTransGen.refl, moveImage t m, hmv2, ?_⟩
      rw [happ, popcount_image (wsupp_of_playinv hb2) t]
      simpa [playSeq] using hwin
    · obtain ⟨t2, ht2⟩ := canonB_is_image (applyMoveB b m)
      have hstep : HopStep c (canonB (applyMoveB b m)) := by
        refine ⟨moveImage t m, hmv2, ?_⟩
        rw [happ]
        exact (canonB_image _ (wsupp_of_playinv hb2) t).symm
      obtain ⟨y, hp2, hw⟩ := ih (applyMoveB b m) (canonB (applyMoveB b m)) t2 hb2 ht2 hrest
        (by simp) (by simpa [playSeq] using hwin)
      exact ⟨y, Relation.ReflTransGen.head hstep hp2, hw⟩

theorem hop_to_seq (y : Nat) (hwin : HopWin y) : ∀ c : Nat,
    Relation.ReflTransGen HopStep c y →
    ∀ b t, PlayInv b → c = canonImage b t → SolvableNE b := by
  intro c hpath
  induction hpath using Relation.ReflTransGen.head_induction_on with
  | refl =>
    intro b t hb hc
    obtain ⟨mp, hmp1, hmp2⟩ := hwin
    obtain ⟨hmem1, hleg1⟩ := validMoves_mem.mp hmp1
    have hm2 : moveImage (inverseTransform t) mp ∈ ALL_MOVES :=
      moveImage_mem_all _ (mem_allTransforms _) mp hmem1
    have hback : moveImage t (moveImage (inverseTransform t) mp) = mp := moveImage_inv hmem1 t
    have hleg2 : legalB b (moveImage (inverseTransform t) mp) = true := by
      rw [← legal_image hb hm2 t, hback, ← hc]
      exact hleg1
    have hmpp := move_playinv hm2
    have happ : applyMoveB y mp =
        canonImage (applyMoveB b (moveImage (inverseTransform t) mp)) t := by
      conv_lhs => rw [hc, ← hback]
      exact (apply_image (wsupp_of_playinv hb) (wsupp_of_playinv hmpp.1)
        (wsupp_of_playinv hmpp.2) t).symm
    refine ⟨[moveImage (inverseTransform t) mp], by simp, ⟨hm2, hleg2, trivial⟩, ?_⟩
    have hb2 : PlayInv (applyMoveB b (moveImage (inverseTransform t) mp)) :=
      playinv_apply hb hm2
    have := hmp2
    rw [happ, popcount_image (wsupp_of_playinv hb2) t] at this
    simpa [playSeq] using this
  | @head cc cnext hstep hrtg ih =>
    intro b t hb hc
    obtain ⟨mp, hmp1, hmp2⟩ := hstep
    obtain ⟨hmem1, hleg1⟩ := validMoves_mem.mp hmp1
    have hm2 : moveImage (inverseTransform t) mp ∈ ALL_MOVES :=
      moveImage_mem_all _ (mem_allTransforms _) mp hmem1
    have hback : moveImage t (moveImage (inverseTransform t) mp) = mp := moveImage_inv hmem1 t
    have hleg2 : legalB b (moveImage (inverseTransform t) mp) = true := by
      rw [← legal_image hb hm2 t, hback, ← hc]
      exact hleg1
    have hmpp := move_playinv hm2
    have hb2 : PlayInv (applyMoveB b (moveImage (inverseTransform t) mp)) :=
      playinv_apply hb hm2
    have happ : applyMoveB cc mp =
        canonImage (applyMoveB b (moveImage (inverseTransform t) mp)) t := by
      conv_lhs => rw [hc, ← hback]
      exact (apply_image (wsupp_of_playinv hb) (wsupp_of_playinv hmpp.1)
        (wsupp_of_playinv hmpp.2) t).symm
    obtain ⟨t2, ht2⟩ := canonB_is_image (applyMoveB b (moveImage (inverseTransform t) mp))
    have hc2 : cnext = canonImage (applyMoveB b (moveImage (inverseTransform t) mp)) t2 := by
      rw [hmp2, happ, canonB_image _ (wsupp_of_playinv hb2) t]
      exact ht2
    obtain ⟨ms, hne, hleg, hpop⟩ := ih _ t2 hb2 hc2
    refine ⟨moveImage (inverseTransform t) mp :: ms, by simp, ⟨hm2, hleg2, hleg⟩, ?_⟩
    simpa [playSeq] using hpop

theorem solvable_iff_hop {b : Nat} (hb : PlayInv b) : SolvableNE b ↔ HopSolv (canonB b) := by
  obtain ⟨t0, ht0⟩ := canonB_is_image b
  constructor
  · rintro ⟨ms, hne, hleg, hpop⟩
    exact seq_to_hop ms b (canonB b) t0 hb ht0 hleg hne hpop
  · rintro ⟨y, hpath, hwin⟩
    exact hop_to_seq y hwin (canonB b) hpath b t0 hb ht0

/-! ## Characterisation of one DFS step -/

theorem hasWon_iff (b : Nat) : hasWonB b = true ↔ popcount64 b = 1 := by
  simp [hasWonB]

theorem dfsStep_pop (top : Frame) (rest : List Frame) (buf : List Mv) (seen : List Nat)
    (h : top.moveIndex ≥ top.moveEnd) :
    dfsStep ⟨top :: rest, buf, seen⟩ = .inl ⟨rest, buf, seen⟩ := by
  dsimp only [dfsStep]
  rw [if_pos h]

theorem dfsStep_seen (top : Frame) (rest : List Frame) (buf : List Mv) (seen : List Nat)
    (h1 : ¬ top.moveIndex ≥ top.moveEnd)
    (h2 : seen.contains
      (boardToBits (canonB (applyMoveB top.board (buf.getD top.moveIndex ⟨0, 0⟩)))) = true) :
    dfsStep ⟨top :: rest, buf, seen⟩ =
      .inl ⟨{ top with moveIndex := top.moveIndex + 1 } :: rest, buf, seen⟩ := by
  dsimp only [dfsStep]
  rw [if_neg h1, if_pos h2]

theorem getMoveOrder_cons_ne {f : Frame} {rest : List Frame} {m : Mv}
    (h : f.incoming = some m) : getMoveOrder (f :: rest) ≠ [] := by
  simp [getMoveOrder, collectMoves, h]

theorem dfsStep_win (top : Frame) (rest : List Frame) (buf : List Mv) (seen : List Nat)
    (h1 : ¬ top.moveIndex ≥ top.moveEnd)
    (h2 : ¬ seen.contains
      (boardToBits (canonB (applyMoveB top.board (buf.getD top.moveIndex ⟨0, 0⟩)))) = true)
    (h3 : hasWonB (applyMoveB top.board (buf.getD top.moveIndex ⟨0, 0⟩)) = true) :
    ∃ res : List Mv, dfsStep ⟨top :: rest, buf, seen⟩ = .inr res ∧ res ≠ [] := by
  refine ⟨getMoveOrder
      (⟨canonB (applyMoveB top.board (buf.getD top.moveIndex ⟨0, 0⟩)), buf.length,
        (buf ++ validMovesB (canonB (applyMoveB top.board
          (buf.getD top.moveIndex ⟨0, 0⟩)))).length,
        buf.length,
        top.transforms ++
          (if (canonicalPair (applyMoveB top.board (buf.getD top.moveIndex ⟨0, 0⟩))).2 = .d0
           then [] else [(canonicalPair (applyMoveB top.board (buf.getD top.moveIndex ⟨0, 0⟩))).2]),
        some (buf.getD top.moveIndex ⟨0, 0⟩)⟩ ::
       { top with moveIndex := top.moveIndex + 1 } :: rest), ?_, ?_⟩
  · dsimp only [dfsStep]
    rw [if_neg h1, if_neg h2, if_pos h3]
  · exact getMoveOrder_cons_ne rfl

theorem dfsStep_new (top : Frame) (rest : List Frame) (buf : List Mv) (seen : List Nat)
    (h1 : ¬ top.moveIndex ≥ top.moveEnd)
    (h2 : ¬ seen.contains
      (boardToBits (canonB (applyMoveB top.board (buf.getD top.moveIndex ⟨0, 0⟩)))) = true)
    (h3 : ¬ hasWonB (applyMoveB top.board (buf.getD top.moveIndex ⟨0, 0⟩)) = true) :
    dfsStep ⟨top :: rest, buf, seen⟩ = .inl
      ⟨⟨canonB (applyMoveB top.board (buf.getD top.moveIndex ⟨0, 0⟩)), buf.length,
        (buf ++ validMovesB (canonB (applyMoveB top.board (buf.getD top.moveIndex ⟨0, 0⟩)))).length,
        buf.length,
        top.transforms ++
          (if (canonicalPair (applyMoveB top.board (buf.getD top.moveIndex ⟨0, 0⟩))).2 = .d0
           then [] else [(canonicalPair (applyMoveB top.board (buf.getD top.moveIndex ⟨0, 0⟩))).2]),
        some (buf.getD top.moveIndex ⟨0, 0⟩)⟩ ::
       { top with moveIndex := top.moveIndex + 1 } :: rest,
      buf ++ validMovesB (canonB (applyMoveB top.board (buf.getD top.moveIndex ⟨0, 0⟩))),
      boardToBits (canonB (applyMoveB top.board (buf.getD top.moveIndex ⟨0, 0⟩))) :: seen⟩ := by
  dsimp only [dfsStep]
  rw [if_neg h1, if_neg h2, if_neg h3]

/-! ## Preservation of the DFS invariant -/

theorem frame_expanded {st : DFSState} {f : Frame} (hf : FrameOK st f)
    (hexh : f.moveEnd ≤ f.moveIndex) : Expanded f.board st.seen := by
  intro m hm
  obtain ⟨j, hj1, hj2, hj3⟩ := hf.segAll m hm
  have hd := hf.done j hj1 (lt_of_lt_of_le hj2 hexh)
  rw [hj3] at hd
  exact hd

theorem expanded_mono {c : Nat} {s1 s2 : List Nat} (hsub : ∀ k ∈ s1, k ∈ s2)
    (h : Expanded c s1) : Expanded c s2 :=
  fun m hm => ⟨hsub _ (h m hm).1, (h m hm).2⟩

theorem chainOKb_tail {x : Nat} {l : List Nat} (h : ChainOKb (x :: l)) : ChainOKb l := by
  cases l with
  | nil => trivial
  | cons y ys => exact h.2

theorem chain_rtg : ∀ l : List Nat, ChainOKb l → ∀ x r : Nat,
    l.head? = some x → l.getLast? = some r → Relation.ReflTransGen HopStep r x := by
  intro l
  induction l with
  | nil => intro _ x r hx _; cases hx
  | cons a l ih =>
    intro hch x r hx hr
    cases hx
    rcases l with _ | ⟨b, l2⟩
    · cases hr
      exact .refl
    · obtain ⟨hstep, hch2⟩ := hch
      rw [List.getLast?_cons_cons] at hr
      exact Relation.ReflTransGen.tail (ih hch2 b r rfl hr) hstep

theorem seen_key_not_won {st : DFSState} (hs : SeenOK st) {x : Nat} (hx : PlayInv x)
    (hk : boardToBits (canonB x) ∈ st.seen) : popcount64 x ≠ 1 := by
  obtain ⟨c, hc1, _, hc3, hc4, _⟩ := hs _ hk
  have hpc : PlayInv (canonB x) := playinv_canonB hx
  have hce : c = canonB x := boardToBits_inj hc1 hpc hc3
  have hpop : popcount64 (canonB x) = popcount64 x := popcount_canonB (wsupp_of_playinv hx)
  rw [hce, hpop] at hc4
  exact hc4

theorem frameOK_extend {st st' : DFSState} {f : Frame} (h : FrameOK st f) (ext : List Mv)
    (hbuf : st'.buffer = st.buffer ++ ext)
    (hseen : ∀ k ∈ st.seen, k ∈ st'.seen) : FrameOK st' f := by
  have hgetD : ∀ j, j < st.buffer.length →
      st'.buffer.getD j ⟨0, 0⟩ = st.buffer.getD j ⟨0, 0⟩ := by
    intro j hj
    rw [hbuf]
    exact List.getD_append _ _ _ _ hj
  refine ⟨h.playinv, h.canonical, h.le1, h.le2, ?_, ?_, ?_, ?_⟩
  · rw [hbuf, List.length_append]
    have := h.le3
    omega
  · intro j hj1 hj2
    rw [hgetD j (lt_of_lt_of_le hj2 h.le3)]
    exact h.segMem j hj1 hj2
  · intro m hm
    obtain ⟨j, hj1, hj2, hj3⟩ := h.segAll m hm
    exact ⟨j, hj1, hj2, by rw [hgetD j (lt_of_lt_of_le hj2 h.le3)]; exact hj3⟩
  · intro j hj1 hj2
    have hjlt : j < st.buffer.length := lt_of_lt_of_le (lt_of_lt_of_le hj2 h.le2) h.le3
    rw [hgetD j hjlt]
    obtain ⟨d1, d2⟩ := h.done j hj1 hj2
    exact ⟨hseen _ d1, d2⟩

theorem frameOK_bump {st st' : DFSState} {top : Frame}
    (h : FrameOK st top) (hlt : top.moveIndex < top.moveEnd)
    (ext : List Mv) (hbuf : st'.buffer = st.buffer ++ ext)
    (hseen : ∀ k ∈ st.seen, k ∈ st'.seen)
    (hnew : boardToBits (canonB (applyMoveB top.board
      (st.buffer.getD top.moveIndex ⟨0, 0⟩))) ∈ st'.seen)
    (hnw : popcount64 (applyMoveB top.board (st.buffer.getD top.moveIndex ⟨0, 0⟩)) ≠ 1) :
    FrameOK st' { top with moveIndex := top.moveIndex + 1 } := by
  have hgetD : ∀ j, j < st.buffer.length →
      st'.buffer.getD j ⟨0, 0⟩ = st.buffer.getD j ⟨0, 0⟩ := by
    intro j hj
    rw [hbuf]
    exact List.getD_append _ _ _ _ hj
  refine ⟨h.playinv, h.canonical, le_trans h.le1 (Nat.le_succ _), hlt, ?_, ?_, ?_, ?_⟩
  · show top.moveEnd ≤ st'.buffer.length
    rw [hbuf, List.length_append]
    have := h.le3
    omega
  · intro j hj1 hj2
    rw [hgetD j (lt_of_lt_of_le hj2 h.le3)]
    exact h.segMem j hj1 hj2
  · intro m hm
    obtain ⟨j, hj1, hj2, hj3⟩ := h.segAll m hm
    exact ⟨j, hj1, hj2, by rw [hgetD j (lt_of_lt_of_le hj2 h.le3)]; exact hj3⟩
  · intro j hj1 hj2
    have hj1' : top.movesStart ≤ j := hj1
    have hj2' : j < top.moveIndex + 1 := hj2
    have hjlt : j < st.buffer.length := by
      have := h.le3
      omega
    rw [hgetD j hjlt]
    rcases (by omega : j < top.moveIndex ∨ j = top.moveIndex) with hj | hj
    · obtain ⟨d1, d2⟩ := h.done j hj1' hj
      exact ⟨hseen _ d1, d2⟩
    · subst hj
      exact ⟨hnew, hnw⟩

theorem rootLast_cons {R : Nat} {a b : Frame} {l : List Frame}
    (h : (a :: l).getLast?.map Frame.board = some R) (hab : b.board = a.board) :
    (b :: l).getLast?.map Frame.board = some R := by
  cases l with
  | nil =>
    show some b.board = some R
    rw [hab]
    exact h
  | cons g gs =>
    rw [List.getLast?_cons_cons] at h ⊢
    exact h

theorem inv_pop {R : Nat} {top : Frame} {rest : List Frame} {buf : List Mv} {seen : List Nat}
    (hinv : INV R ⟨top :: rest, buf, seen⟩) (hexh : top.moveEnd ≤ top.moveIndex) :
    INV R ⟨rest, buf, seen⟩ := by
  have htopOK := hinv.frames top (List.mem_cons_self _ _)
  have hexp : Expanded top.board seen := frame_expanded htopOK hexh
  refine ⟨hinv.rootPlay, hinv.rootCanon, ?_, chainOKb_tail hinv.chain, ?_, ?_⟩
  · intro k hk
    obtain ⟨c, h1, h2, h3, h4, h5⟩ := hinv.seenOK k hk
    refine ⟨c, h1, h2, h3, h4, ?_⟩
    rcases h5 with h5 | h5
    · rcases List.mem_cons.mp h5 with h6 | h6
      · right
        rw [h6]
        exact hexp
      · left
        exact h6
    · right
      exact h5
  · intro f hf
    exact frameOK_extend (hinv.frames f (List.mem_cons_of_mem _ hf)) []
      (List.append_nil buf).symm (fun _ hk => hk)
  · rcases rest with _ | ⟨g, gs⟩
    · right
      refine ⟨rfl, ?_⟩
      rcases hinv.rootLast with h | h
      · have hb : top.board = R := by
          injection h
        rw [← hb]
        exact hexp
      · exact absurd h.1 (List.cons_ne_nil _ _)
    · left
      rcases hinv.rootLast with h | h
      · rw [List.getLast?_cons_cons] at h
        exact h
      · exact absurd h.1 (List.cons_ne_nil _ _)

set_option maxHeartbeats 1000000 in
theorem inv_seen {R : Nat} {top : Frame} {rest : List Frame} {buf : List Mv} {seen : List Nat}
    (hinv : INV R ⟨top :: rest, buf, seen⟩) (hlt : top.moveIndex < top.moveEnd)
    (hs : boardToBits (canonB (applyMoveB top.board (buf.getD top.moveIndex ⟨0, 0⟩))) ∈ seen) :
    INV R ⟨{ top with moveIndex := top.moveIndex + 1 } :: rest, buf, seen⟩ := by
  have htopOK := hinv.frames top (List.mem_cons_self _ _)
  have hmv : buf.getD top.moveIndex ⟨0, 0⟩ ∈ validMovesB top.board :=
    htopOK.segMem top.moveIndex htopOK.le1 hlt
  have hma := (validMoves_mem.mp hmv).1
  have hpn : PlayInv (applyMoveB top.board (buf.getD top.moveIndex ⟨0, 0⟩)) :=
    playinv_apply htopOK.playinv hma
  have hnw : popcount64 (applyMoveB top.board (buf.getD top.moveIndex ⟨0, 0⟩)) ≠ 1 :=
    seen_key_not_won hinv.seenOK hpn hs
  refine ⟨hinv.rootPlay, hinv.rootCanon, hinv.seenOK, hinv.chain, ?_, ?_⟩
  · intro f hf
    rcases List.mem_cons.mp hf with h6 | h6
    · rw [h6]
      exact frameOK_bump htopOK hlt [] (List.append_nil buf).symm (fun _ hk => hk) hs hnw
    · exact frameOK_extend (hinv.frames f (List.mem_cons_of_mem _ h6)) []
        (List.append_nil buf).symm (fun _ hk => hk)
  · rcases hinv.rootLast with h | h
    · left
      exact rootLast_cons h rfl
    · exact absurd h.1 (List.cons_ne_nil _ _)

theorem frameOK_child {st' : DFSState} {c : Nat} {buf : List Mv} {ts : List Transform}
    {m : Mv} (hbuf : st'.buffer = buf ++ validMovesB c)
    (hpc : PlayInv c) (hci : canonB c = c) :
    FrameOK st' ⟨c, buf.length, (buf ++ validMovesB c).length, buf.length, ts, some m⟩ := by
  refine ⟨hpc, hci, le_refl _, ?_, ?_, ?_, ?_, ?_⟩
  · show buf.length ≤ (buf ++ validMovesB c).length
    rw [List.length_append]
    omega
  · show (buf ++ validMovesB c).length ≤ st'.buffer.length
    rw [hbuf]
  · intro j hj1 hj2
    have hj1' : buf.length ≤ j := hj1
    have hj2' : j < (buf ++ validMovesB c).length := hj2
    rw [List.length_append] at hj2'
    show st'.buffer.getD j ⟨0, 0⟩ ∈ validMovesB c
    rw [hbuf, List.getD_append_right _ _ _ _ hj1',
      List.getD_eq_getElem _ _ (by omega : j - buf.length < (validMovesB c).length)]
    exact List.getElem_mem _
  · intro m' hm'
    have hm'2 : m' ∈ validMovesB c := hm'
    obtain ⟨i, hi, hie⟩ := List.mem_iff_getElem.mp hm'2
    refine ⟨buf.length + i, Nat.le_add_right _ _, ?_, ?_⟩
    · show buf.length + i < (buf ++ validMovesB c).length
      rw [List.length_append]
      omega
    · show st'.buffer.getD (buf.length + i) ⟨0, 0⟩ = m'
      rw [hbuf, List.getD_append_right _ _ _ _ (Nat.le_add_right _ _),
        Nat.add_sub_cancel_left, List.getD_eq_getElem _ _ hi]
      exact hie
  · intro j hj1 hj2
    have hj1' : buf.length ≤ j := hj1
    have hj2' : j < buf.length := hj2
    omega

set_option maxHeartbeats 16000000 in
theorem inv_push {R : Nat} {top : Frame} {rest : List Frame} {buf : List Mv} {seen : List Nat}
    (hinv : INV R ⟨top :: rest, buf, seen⟩) (hlt : top.moveIndex < top.moveEnd)
    (hnw : popcount64 (applyMoveB top.board (buf.getD top.moveIndex ⟨0, 0⟩)) ≠ 1)
    (ts : List Transform) :
    INV R ⟨⟨canonB (applyMoveB top.board (buf.getD top.moveIndex ⟨0, 0⟩)), buf.length,
        (buf ++ validMovesB (canonB (applyMoveB top.board
          (buf.getD top.moveIndex ⟨0, 0⟩)))).length,
        buf.length, ts, some (buf.getD top.moveIndex ⟨0, 0⟩)⟩ ::
       { top with moveIndex := top.moveIndex + 1 } :: rest,
      buf ++ validMovesB (canonB (applyMoveB top.board (buf.getD top.moveIndex ⟨0, 0⟩))),
      boardToBits (canonB (applyMoveB top.board (buf.getD top.moveIndex ⟨0, 0⟩))) :: seen⟩ := by
  have htopOK := hinv.frames top (List.mem_cons_self _ _)
  have hmv : buf.getD top.moveIndex ⟨0, 0⟩ ∈ validMovesB top.board :=
    htopOK.segMem top.moveIndex htopOK.le1 hlt
  have hma := (validMoves_mem.mp hmv).1
  have hpn : PlayInv (applyMoveB top.board (buf.getD top.moveIndex ⟨0, 0⟩)) :=
    playinv_apply htopOK.playinv hma
  have hpc : PlayInv (canonB (applyMoveB top.board (buf.getD top.moveIndex ⟨0, 0⟩))) :=
    playinv_canonB hpn
  have hci : canonB (canonB (applyMoveB top.board (buf.getD top.moveIndex ⟨0, 0⟩))) =
      canonB (applyMoveB top.board (buf.getD top.moveIndex ⟨0, 0⟩)) :=
    canonB_idem (wsupp_of_playinv hpn)
  have hcnw : popcount64 (canonB (applyMoveB top.board (buf.getD top.moveIndex ⟨0, 0⟩))) ≠ 1 := by
    rw [popcount_canonB (wsupp_of_playinv hpn)]
    exact hnw
  refine ⟨hinv.rootPlay, hinv.rootCanon, ?_, ?_, ?_, ?_⟩
  · intro k hk
    rcases List.mem_cons.mp hk with h6 | h6
    · exact ⟨canonB (applyMoveB top.board (buf.getD top.moveIndex ⟨0, 0⟩)), hpc, hci, h6.symm,
        hcnw, Or.inl (List.mem_cons_self _ _)⟩
    · obtain ⟨c, h1, h2, h3, h4, h5⟩ := hinv.seenOK k h6
      refine ⟨c, h1, h2, h3, h4, ?_⟩
      rcases h5 with h5 | h5
      · left
        exact List.mem_cons_of_mem _ h5
      · right
        exact expanded_mono (fun _ hk' => List.mem_cons_of_mem _ hk') h5
  · exact ⟨⟨buf.getD top.moveIndex ⟨0, 0⟩, hmv, rfl⟩, hinv.chain⟩
  · intro f hf
    rcases List.mem_cons.mp hf with h6 | h6
    · rw [h6]
      exact frameOK_child rfl hpc hci
    · rcases List.mem_cons.mp h6 with h7 | h7
      · rw [h7]
        exact frameOK_bump htopOK hlt _ rfl (fun _ hk => List.mem_cons_of_mem _ hk)
          (List.mem_cons_self _ _) hnw
      · exact frameOK_extend (hinv.frames f (List.mem_cons_of_mem _ h7)) _ rfl
          (fun _ hk => List.mem_cons_of_mem _ hk)
  · rcases hinv.rootLast with h | h
    · left
      rw [List.getLast?_cons_cons]
      exact rootLast_cons h rfl
    · exact absurd h.1 (List.cons_ne_nil _ _)

theorem hop_from_state {R : Nat} {top : Frame} {rest : List Frame} {buf : List Mv}
    {seen : List Nat} (hinv : INV R ⟨top :: rest, buf, seen⟩)
    (hlt : top.moveIndex < top.moveEnd)
    (hwon : popcount64 (applyMoveB top.board (buf.getD top.moveIndex ⟨0, 0⟩)) = 1) :
    HopSolv R := by
  have htopOK := hinv.frames top (List.mem_cons_self _ _)
  have hmv : buf.getD top.moveIndex ⟨0, 0⟩ ∈ validMovesB top.board :=
    htopOK.segMem top.moveIndex htopOK.le1 hlt
  have hlast : ((top :: rest).map Frame.board).getLast? = some R := by
    rw [List.getLast?_map]
    rcases hinv.rootLast with h | h
    · exact h
    · exact absurd h.1 (List.cons_ne_nil _ _)
  have hrtg : Relation.ReflTransGen HopStep R top.board :=
    chain_rtg _ hinv.chain top.board R rfl hlast
  exact ⟨top.board, hrtg, ⟨_, hmv, hwon⟩⟩

theorem closed_no_hopsolv {R : Nat} {seen : List Nat}
    (hR1 : PlayInv R) (hexp : Expanded R seen)
    (hcl : ∀ k ∈ seen, ∃ c, PlayInv c ∧ canonB c = c ∧ boardToBits c = k ∧
      popcount64 c ≠ 1 ∧ Expanded c seen) : ¬ HopSolv R := by
  rintro ⟨y, hrtg, hwin⟩
  have key : ∀ z, Relation.ReflTransGen HopStep R z → PlayInv z ∧ Expanded z seen := by
    intro z hz
    induction hz with
    | refl => exact ⟨hR1, hexp⟩
    | @tail b c hab hbc ih =>
      obtain ⟨hpb, hexb⟩ := ih
      obtain ⟨m, hm, rfl⟩ := hbc
      have hma := (validMoves_mem.mp hm).1
      have hpn : PlayInv (applyMoveB b m) := playinv_apply hpb hma
      obtain ⟨hk, _⟩ := hexb m hm
      obtain ⟨c', hc1, _, hc3, _, hc5⟩ := hcl _ hk
      have hpcn : PlayInv (canonB (applyMoveB b m)) := playinv_canonB hpn
      have hce : c' = canonB (applyMoveB b m) := boardToBits_inj hc1 hpcn hc3
      exact ⟨hpcn, hce ▸ hc5⟩
  obtain ⟨_, hexy⟩ := key y hrtg
  obtain ⟨m, hm, hw⟩ := hwin
  exact (hexy m hm).2 hw

/-! ## Soundness and completeness of the DFS loop -/

theorem runDFS_main : ∀ (fl : Nat) (st : DFSState) (R : Nat) (res : List Mv),
    INV R st → runDFSFuel fl st = some res →
    (res = [] → ¬ HopSolv R) ∧ (res ≠ [] → HopSolv R) := by
  intro fl
  induction fl with
  | zero =>
    intro st R res _ h
    exact Option.noConfusion h
  | succ n ih =>
    intro st R res hinv hrun
    obtain ⟨stack, buf, seen⟩ := st
    rcases stack with _ | ⟨top, rest⟩
    · have hrun' : (some ([] : List Mv)) = some res := hrun
      obtain rfl : ([] : List Mv) = res := Option.some.inj hrun'
      have hexp : Expanded R seen := by
        rcases hinv.rootLast with h | h
        · exact Option.noConfusion h
        · exact h.2
      have hcl : ∀ k ∈ seen, ∃ c, PlayInv c ∧ canonB c = c ∧ boardToBits c = k ∧
          popcount64 c ≠ 1 ∧ Expanded c seen := by
        intro k hk
        obtain ⟨c, h1, h2, h3, h4, h5⟩ := hinv.seenOK k hk
        refine ⟨c, h1, h2, h3, h4, ?_⟩
        rcases h5 with h5 | h5
        · exact absurd h5 (List.not_mem_nil _)
        · exact h5
      have hns := closed_no_hopsolv hinv.rootPlay hexp hcl
      exact ⟨fun _ => hns, fun hne => absurd rfl hne⟩
    · by_cases hexh : top.moveIndex ≥ top.moveEnd
      · simp only [runDFSFuel, dfsStep_pop top rest buf seen hexh] at hrun
        exact ih _ R res (inv_pop hinv hexh) hrun
      · have hlt : top.moveIndex < top.moveEnd := Nat.lt_of_not_le hexh
        by_cases hseen : seen.contains
            (boardToBits (canonB (applyMoveB top.board
              (buf.getD top.moveIndex ⟨0, 0⟩)))) = true
        · simp only [runDFSFuel, dfsStep_seen top rest buf seen hexh hseen] at hrun
          exact ih _ R res (inv_seen hinv hlt (List.elem_iff.mp hseen)) hrun
        · by_cases hwon : hasWonB (applyMoveB top.board (buf.getD top.moveIndex ⟨0, 0⟩)) = true
          · obtain ⟨res2, hst, hne⟩ := dfsStep_win top rest buf seen hexh hseen hwon
            simp only [runDFSFuel, hst, Option.some.injEq] at hrun
            subst hrun
            exact ⟨fun h => absurd h hne,
              fun _ => hop_from_state hinv hlt ((hasWon_iff _).mp hwon)⟩
          · simp only [runDFSFuel, dfsStep_new top rest buf seen hexh hseen hwon] at hrun
            refine ih _ R res (inv_push hinv hlt ?_ _) hrun
            intro h1
            exact hwon ((hasWon_iff _).mpr h1)

/-! ## Totality of the DFS loop -/

theorem validMoves_len (b : Nat) : (validMovesB b).length ≤ 92 := by
  have h := List.length_filter_le (legalB b) ALL_MOVES
  rw [(by decide : ALL_MOVES.length = 92)] at h
  exact h

theorem seen_bound {seen : List Nat} (hnd : seen.Nodup) (hlt : ∀ k ∈ seen, k < 2 ^ 37) :
    seen.length ≤ 2 ^ 37 := by
  rw [← List.toFinset_card_of_nodup hnd]
  have hsub : seen.toFinset ⊆ Finset.range (2 ^ 37) := by
    intro k hk
    rw [List.mem_toFinset] at hk
    exact Finset.mem_range.mpr (hlt k hk)
  have h := Finset.card_le_card hsub
  simpa using h

theorem runDFS_total : ∀ (fl : Nat) (st : DFSState), TotInv st → measureDFS st < fl →
    (runDFSFuel fl st).isSome = true := by
  intro fl
  induction fl with
  | zero =>
    intro st _ h
    exact absurd h (Nat.not_lt_zero _)
  | succ n ih =>
    intro st htot hm
    obtain ⟨stack, buf, seen⟩ := st
    rcases stack with _ | ⟨top, rest⟩
    · rfl
    · by_cases hexh : top.moveIndex ≥ top.moveEnd
      · simp only [runDFSFuel, dfsStep_pop top rest buf seen hexh]
        apply ih
        · exact htot
        · simp only [measureDFS, movesRem, List.map_cons, List.sum_cons,
            List.length_cons] at hm ⊢
          omega
      · by_cases hseen : seen.contains
            (boardToBits (canonB (applyMoveB top.board
              (buf.getD top.moveIndex ⟨0, 0⟩)))) = true
        · simp only [runDFSFuel, dfsStep_seen top rest buf seen hexh hseen]
          apply ih
          · exact htot
          · simp only [measureDFS, movesRem, List.map_cons, List.sum_cons,
              List.length_cons] at hm ⊢
            omega
        · by_cases hwon : hasWonB (applyMoveB top.board (buf.getD top.moveIndex ⟨0, 0⟩)) = true
          · obtain ⟨res2, hst, _⟩ := dfsStep_win top rest buf seen hexh hseen hwon
            simp only [runDFSFuel, hst]
            rfl
          · simp only [runDFSFuel, dfsStep_new top rest buf seen hexh hseen hwon]
            have hnd' : (boardToBits (canonB (applyMoveB top.board
                (buf.getD top.moveIndex ⟨0, 0⟩))) :: seen).Nodup :=
              List.nodup_cons.mpr ⟨fun hmem => hseen (List.elem_iff.mpr hmem), htot.1⟩
            have hlt' : ∀ k ∈ (boardToBits (canonB (applyMoveB top.board
                (buf.getD top.moveIndex ⟨0, 0⟩))) :: seen), k < 2 ^ 37 := by
              intro k hk
              rcases List.mem_cons.mp hk with h | h
              · rw [h]
                exact boardToBits_lt _
              · exact htot.2 k h
            apply ih
            · exact ⟨hnd', hlt'⟩
            · have hn := seen_bound hnd' hlt'
              rw [List.length_cons] at hn
              have hV := validMoves_len
                (canonB (applyMoveB top.board (buf.getD top.moveIndex ⟨0, 0⟩)))
              simp only [measureDFS, movesRem, List.map_cons, List.sum_cons,
                List.length_cons, List.length_append] at hm ⊢
              omega

/-! ## The initial state satisfies the invariants -/

theorem totinv_init (b : Nat) : TotInv (initState b) :=
  ⟨List.nodup_nil, fun k hk => absurd hk (List.not_mem_nil k)⟩

theorem measure_init (b : Nat) : measureDFS (initState b) < FUEL := by
  have hV := validMoves_len (canonicalPair b).1
  simp only [measureDFS, movesRem, initState, FUEL, List.map_cons, List.map_nil,
    List.sum_cons, List.sum_nil, List.length_cons, List.length_nil]
  omega

theorem inv_initAbs (c : Nat) (ts : List Transform) (hcb : PlayInv c) (hci : canonB c = c) :
    INV c ⟨[⟨c, 0, (validMovesB c).length, 0, ts, none⟩], validMovesB c, []⟩ := by
  refine ⟨hcb, hci, ?_, trivial, ?_, ?_⟩
  · intro k hk
    exact absurd hk (List.not_mem_nil k)
  · intro f hf
    rw [List.mem_singleton] at hf
    subst hf
    refine ⟨hcb, hci, le_refl _, Nat.zero_le _, le_refl _, ?_, ?_, ?_⟩
    · intro j hj1 hj2
      have hj2' : j < (validMovesB c).length := hj2
      show (validMovesB c).getD j ⟨0, 0⟩ ∈ validMovesB c
      rw [List.getD_eq_getElem _ _ hj2']
      exact List.getElem_mem _
    · intro m hm
      have hm' : m ∈ validMovesB c := hm
      obtain ⟨i, hi, hie⟩ := List.mem_iff_getElem.mp hm'
      refine ⟨i, Nat.zero_le _, hi, ?_⟩
      show (validMovesB c).getD i ⟨0, 0⟩ = m
      rw [List.getD_eq_getElem _ _ hi]
      exact hie
    · intro j hj1 hj2
      have hj2' : j < 0 := hj2
      omega
  · left
    rfl

theorem inv_init (b : Nat) (hb : PlayInv b) : INV (canonB b) (initState b) :=
  inv_initAbs (canonB b) _ (playinv_canonB hb) (canonB_idem (wsupp_of_playinv hb))

theorem solve_eq (b : Nat) : solve b = (runDFSFuel FUEL (initState b)).getD [] := rfl

/-- C2, counterexample to the claim as stated: on the already-won board with a
single marble at (3,3) the solver returns the empty move list although a
(zero-length) sequence of legal moves trivially reaches popcount 1, so
"solve(B) returns empty iff no sequence of legal moves reaches popcount 1"
fails as stated; it holds only for non-empty sequences. -/
theorem C2_counterexample :
    solve 0x8000000000 = [] ∧ legalSeq 0x8000000000 [] ∧
      popcount64 (playSeq 0x8000000000 []) = 1 :=
  ⟨by decide, trivial, by decide⟩

/-- C2, amended: for every board satisfying the playable invariant, `solve`
returns the empty move list iff no non-empty sequence of legal moves starting
from the board reaches a position with popcount 1; in particular the
canonicalisation-keyed visited set never causes a solvable position to be
reported unsolvable. -/
theorem C2_amended (b : Nat) (hb : PlayInv b) : solve b = [] ↔ ¬ SolvableNE b := by
  obtain ⟨res, hres⟩ := Option.isSome_iff_exists.mp
    (runDFS_total FUEL (initState b) (totinv_init b) (measure_init b))
  have hmain := runDFS_main FUEL (initState b) (canonB b) res (inv_init b hb) hres
  have hsolve : solve b = res := by
    rw [solve_eq, hres]
    rfl
  rw [hsolve, solvable_iff_hop hb]
  constructor
  · intro h
    exact hmain.1 h
  · intro h
    by_cases hne : res = []
    · exact hne
    · exact absurd (hmain.2 hne) h

theorem C2_amended_witness :
    (0x8000000000 : Nat) &&& FULL_BOARD = 0x8000000000 ∧
      (solve 0x8000000000 = [] ↔ ¬ SolvableNE 0x8000000000) :=
  ⟨by decide, C2_amended 0x8000000000
    (show (0x8000000000 : Nat) &&& FULL_BOARD = 0x8000000000 by decide)⟩

end MS
